import Mathlib

/-!
Verification of the tree-markdown parsing core: indentation resolution,
line tokenization, tree building with strict/tolerant error policy, leaf
type inference, and the text/HTML renderers.  Strings are modelled as
`List Char`; JavaScript exceptions are modelled with `Except`.
-/

namespace TreeSpec

/-- Strings of the source are modelled as lists of characters. -/
abbrev Str := List Char

/-- The whitespace characters recognised by `trim`. -/
def isWsChar (c : Char) : Bool :=
  c = ' ' || c = '\t' || c = '\n' || c = '\r'

/-- `String.prototype.trim`: drop whitespace from both ends. -/
def jsTrim (s : Str) : Str :=
  List.rdropWhile isWsChar (s.dropWhile isWsChar)

/-- Prepend a character to the first of the lines. -/
def consHead (c : Char) : List Str → List Str
  | [] => [[c]]
  | l :: ls => (c :: l) :: ls

/-- `input.split(/\r?\n/)`: split on a newline, optionally preceded by a
carriage return. -/
def splitLines : Str → List Str
  | [] => [[]]
  | [c] => if c = '\n' then [[], []] else [[c]]
  | c :: c2 :: rest =>
    if c = '\r' ∧ c2 = '\n' then [] :: splitLines rest
    else if c = '\n' then [] :: splitLines (c2 :: rest)
    else consHead c (splitLines (c2 :: rest))

/-- Parse mode: `strict` raises on malformed structure, `tolerant` repairs. -/
inductive Mode where
  | strict
  | tolerant
deriving DecidableEq

/-- `ParseOptions` with all fields optional, as in the source. -/
structure ParseOptions where
  mode : Option Mode := none
  tabWidth : Option Nat := none
  indentWidth : Option Nat := none

/-- Options after defaulting. -/
structure ResolvedOptions where
  mode : Mode
  tabWidth : Nat
  indentWidth : Nat
deriving DecidableEq

/-- `resolveOptions`: defaults are tolerant mode, tab width 2, indent width 2. -/
def resolveOptions : Option ParseOptions → ResolvedOptions
  | none => ⟨.tolerant, 2, 2⟩
  | some o => ⟨o.mode.getD .tolerant, o.tabWidth.getD 2, o.indentWidth.getD 2⟩

/-- `TreeParseError`: a category string plus the 1-based source line. -/
structure TreeParseError where
  category : String
  line : Nat
deriving DecidableEq

/-- The message built by the `TreeParseError` constructor:
`Line ${line}: ${message}`. -/
def errMessage (e : TreeParseError) : String :=
  "Line " ++ toString e.line ++ ": " ++ e.category

/-- `throwIfStrict`: raise the error in strict mode, do nothing otherwise. -/
def throwIfStrict (mode : Mode) (e : TreeParseError) : Except TreeParseError Unit :=
  match mode with
  | .strict => .error e
  | .tolerant => .ok ()

/-- Expand each tab of the leading run to `tabWidth` spaces. -/
def expandTabs (lead : Str) (tw : Nat) : Str :=
  (lead.map (fun c => if c = '\t' then List.replicate tw ' ' else [c])).flatten

/-- The loop body of the indentation-unit scan, with a fuel argument for
structural recursion; the fuel never runs out when it starts at the length
of the scanned list. -/
def indentScanGo (mode : Mode) (iw : Nat) (ln : Nat) :
    Nat → Str → Except TreeParseError (Nat × Str)
  | 0, s => pure (0, s)
  | fuel + 1, [] => pure (0, [])
  | fuel + 1, c :: rest =>
    if c = '│' then do
      let sp := rest.takeWhile (fun d => d = ' ')
      let rest' := rest.dropWhile (fun d => d = ' ')
      if sp.length = 0 then
        throwIfStrict mode ⟨"Invalid tree prefix after vertical connector", ln⟩
      let (lv, rem) ← indentScanGo mode iw ln fuel rest'
      pure (lv + 1, rem)
    else if c = ' ' then do
      let sp := (c :: rest).takeWhile (fun d => d = ' ')
      let rest' := (c :: rest).dropWhile (fun d => d = ' ')
      if sp.length % iw ≠ 0 then
        throwIfStrict mode ⟨"Indentation not aligned to indentWidth", ln⟩
      let (lv, rem) ← indentScanGo mode iw ln fuel rest'
      pure (lv + sp.length / iw, rem)
    else pure (0, c :: rest)

/-- The indentation-unit scan (`readIndentUnits`): consume vertical
connectors (each followed by spaces) and plain space runs, returning the
accumulated level and the unconsumed remainder of the line. -/
def indentScan (mode : Mode) (iw : Nat) (ln : Nat) (s : Str) :
    Except TreeParseError (Nat × Str) :=
  indentScanGo mode iw ln s.length s

/-- Branch-glyph consumption (`readBranchPrefix` in the source): a `├` or
`└`, a run of horizontal characters, and one optional space; contributes a
boost of one level. -/
def readBranchMark : Str → (Nat × Str)
  | [] => (0, [])
  | c :: rest =>
    if c = '├' ∨ c = '└' then
      let rest1 := rest.dropWhile (fun d => d = '─' || d = '-')
      (1, if rest1.head? = some ' ' then rest1.tail else rest1)
    else (0, c :: rest)

/-- `parseIndentation`: tab normalization, indentation-unit scan, branch
prefix, content extraction. -/
def parseIndentation (rawLine : Str) (opts : ResolvedOptions) (ln : Nat) :
    Except TreeParseError (Nat × Str) := do
  let lead := rawLine.takeWhile (fun c => c = ' ' || c = '\t')
  let hasTab := lead.contains '\t'
  let hasSpace := lead.contains ' '
  if hasTab && hasSpace then
    throwIfStrict opts.mode ⟨"Mixed tabs and spaces in indentation", ln⟩
  let line :=
    if hasTab then expandTabs lead opts.tabWidth ++ rawLine.drop lead.length
    else rawLine
  let (lv, rem) ← indentScan opts.mode opts.indentWidth ln line
  let (boost, rem2) := readBranchMark rem
  let content := jsTrim rem2
  if content = [] then
    throwIfStrict opts.mode ⟨"Empty tree line", ln⟩
  pure (lv + boost, content)

/-- A tokenized line. -/
structure LineToken where
  name : Str
  level : Nat
  explicitFolder : Bool
  line : Nat
deriving DecidableEq

/-- The body of the `tokenizeLines` loop for one raw line: skip blank
lines, resolve indentation, strip the trailing folder marker, and reject
or skip empty names. -/
def tokenizeLine (raw : Str) (ln : Nat) (opts : ResolvedOptions) :
    Except TreeParseError (Option LineToken) :=
  if jsTrim raw = [] then pure none
  else do
    let (level, content) ← parseIndentation raw opts ln
    let ef := content.getLast? = some '/'
    let name := if ef then jsTrim content.dropLast else jsTrim content
    if name = [] then
      if opts.mode = .strict then throw ⟨"Invalid empty node name", ln⟩
      else pure none
    else pure (some ⟨name, level, decide ef, ln⟩)

/-- Process the lines in order, numbering them from `ln`. -/
def tokenizeFrom (opts : ResolvedOptions) (ln : Nat) :
    List Str → Except TreeParseError (List LineToken)
  | [] => pure []
  | raw :: rest => do
    let tok ← tokenizeLine raw ln opts
    let toks ← tokenizeFrom opts (ln + 1) rest
    match tok with
    | none => pure toks
    | some t => pure (t :: toks)

/-- `tokenizeLines`: split the input into lines and tokenize each with its
1-based line number. -/
def tokenizeLines (input : Str) (options : Option ParseOptions) :
    Except TreeParseError (List LineToken) :=
  tokenizeFrom (resolveOptions options) 1 (splitLines input)

/-- Working node: name, explicit folder marker, children in source order. -/
inductive WTree where
  | mk (name : Str) (explicitFolder : Bool) (children : List WTree)

/-- Name of a working node. -/
def WTree.name : WTree → Str
  | .mk n _ _ => n

/-- Explicit folder marker of a working node. -/
def WTree.explicitFolder : WTree → Bool
  | .mk _ e _ => e

/-- Children of a working node. -/
def WTree.children : WTree → List WTree
  | .mk _ _ cs => cs

/-- File/folder classification. -/
inductive NodeType where
  | file
  | folder
deriving DecidableEq

/-- Finalized output node. -/
inductive TreeNode where
  | mk (name : Str) (type : NodeType) (children : List TreeNode)

/-- Name of a finalized node. -/
def TreeNode.name : TreeNode → Str
  | .mk n _ _ => n

/-- Type of a finalized node. -/
def TreeNode.type : TreeNode → NodeType
  | .mk _ t _ => t

/-- Children of a finalized node. -/
def TreeNode.children : TreeNode → List TreeNode
  | .mk _ _ cs => cs

/-- An open node on the build stack: the children collected so far are
kept in reverse order and reversed when the node closes.  This is the
pure counterpart of the source's in-place `children.push`. -/
structure Frame where
  name : Str
  explicitFolder : Bool
  childrenRev : List WTree

/-- Close a frame into a working node. -/
def closeFrame (f : Frame) : WTree :=
  .mk f.name f.explicitFolder f.childrenRev.reverse

/-- Builder state: the stack of open nodes (head = deepest) and the roots
completed so far, in source order. -/
structure BState where
  stack : List Frame
  roots : List WTree

/-- Attach a completed node to the deepest remaining open node, or make
it a root when the stack has emptied. -/
def closeOnto (t : WTree) : List Frame → List WTree → List Frame × List WTree
  | [], roots => ([], roots ++ [t])
  | g :: gs, roots => (⟨g.name, g.explicitFolder, t :: g.childrenRev⟩ :: gs, roots)

/-- Pop the stack `k` times; each pop closes the deepest open node and
attaches it below (`stack.pop()` in the source loop). -/
def popMany : Nat → List Frame → List WTree → List Frame × List WTree
  | 0, stack, roots => (stack, roots)
  | _ + 1, [], roots => ([], roots)
  | k + 1, f :: fs, roots =>
    let (st, rt) := closeOnto (closeFrame f) fs roots
    popMany k st rt

/-- `while (stack.length > n) stack.pop()`: pops exactly
`stack.length - n` times. -/
def popToLen (n : Nat) (stack : List Frame) (roots : List WTree) :
    List Frame × List WTree :=
  popMany (stack.length - n) stack roots

/-- One iteration of the `buildTree` loop on a token. -/
def buildStep (mode : Mode) (st : BState) (tok : LineToken) :
    Except TreeParseError BState := do
  let level ←
    if tok.level > st.stack.length then
      match mode with
      | .strict => throw ⟨"Non-monotonic indentation", tok.line⟩
      | .tolerant => pure st.stack.length
    else pure tok.level
  let (stack1, roots1) := popToLen level st.stack st.roots
  let f : Frame := ⟨tok.name, tok.explicitFolder, []⟩
  if stack1.length = 0 then
    pure ⟨[f], roots1⟩
  else
    match stack1.head? with
    | none => throw ⟨"Invalid tree structure", tok.line⟩
    | some _ => pure ⟨f :: stack1, roots1⟩

/-- Fold `buildStep` over the token sequence. -/
def buildGo (mode : Mode) : List LineToken → BState → Except TreeParseError BState
  | [], st => pure st
  | t :: ts, st => do buildGo mode ts (← buildStep mode st t)

/-- The structural phase of `buildTree`: run the stack algorithm and close
every remaining open node, producing the working roots. -/
def buildTreeW (tokens : List LineToken) (options : Option ParseOptions) :
    Except TreeParseError (List WTree) := do
  let resolved := resolveOptions options
  let fin ← buildGo resolved.mode tokens ⟨[], []⟩
  let (_, roots) := popToLen 0 fin.stack fin.roots
  pure roots

/-- `isAllCaps`: trim, cut at the first space or `(`, strip non-letters,
and require a non-empty residue equal to its own upper-casing. -/
def isAllCaps (name : Str) : Bool :=
  let trimmed := jsTrim name
  let cands := [trimmed.findIdx? (fun c => c = ' '), trimmed.findIdx? (fun c => c = '(')].filterMap id
  let pre :=
    match cands.min? with
    | some i => trimmed.take i
    | none => trimmed
  let letters := pre.filter (fun c => ('A' ≤ c ∧ c ≤ 'Z') ∨ ('a' ≤ c ∧ c ≤ 'z'))
  letters ≠ [] && letters = letters.map Char.toUpper

/-- Leaf classification used by `finalizeNode` for an unmarked leaf:
a dot anywhere in the name, or an all-caps name, yields `file`. -/
def leafType (name : Str) : NodeType :=
  if name.contains '.' || isAllCaps name then .file else .folder

mutual

/-- `finalizeNode`: children or an explicit marker force `folder`,
otherwise classify the leaf by heuristic. -/
def finalizeNode : WTree → TreeNode
  | .mk name ef children =>
    let fchildren := finalizeList children
    let t : NodeType :=
      if fchildren.length > 0 || ef then .folder
      else leafType name
    .mk name t fchildren

/-- `finalizeNode` mapped over a list of working nodes. -/
def finalizeList : List WTree → List TreeNode
  | [] => []
  | t :: ts => finalizeNode t :: finalizeList ts

end

/-- `buildTree`: stack phase followed by finalization of every root. -/
def buildTree (tokens : List LineToken) (options : Option ParseOptions) :
    Except TreeParseError (List TreeNode) := do
  pure (finalizeList (← buildTreeW tokens options))

/-- `parseTreeBlock`: tokenize then build. -/
def parseTreeBlock (input : Str) (options : Option ParseOptions) :
    Except TreeParseError (List TreeNode) := do
  buildTree (← tokenizeLines input options) options

mutual

/-- The lines emitted by `renderText` for one node: two spaces per depth
level, a `- ` bullet, the name, and a trailing slash on folders. -/
def renderTextNode : TreeNode → Nat → List Str
  | .mk name ty children, depth =>
    let label := if ty = .folder then name ++ ['/'] else name
    (List.replicate (2 * depth) ' ' ++ '-' :: ' ' :: label) :: renderTextList children (depth + 1)

/-- `renderTextNode` over a forest. -/
def renderTextList : List TreeNode → Nat → List Str
  | [], _ => []
  | t :: ts, depth => renderTextNode t depth ++ renderTextList ts depth

end

/-- `renderText`: walk the forest and join the lines with newlines. -/
def renderText (nodes : List TreeNode) : Str :=
  List.intercalate ['\n'] (renderTextList nodes 0)

/-- `value.replaceAll(target, repl)` for a single-character target. -/
def replaceAllChar (target : Char) (repl : Str) : Str → Str
  | [] => []
  | c :: rest =>
    if c = target then repl ++ replaceAllChar target repl rest
    else c :: replaceAllChar target repl rest

/-- The entity for an ampersand. -/
def ampEnt : Str := "&amp;".toList

/-- The entity for a less-than sign. -/
def ltEnt : Str := "&lt;".toList

/-- The entity for a greater-than sign. -/
def gtEnt : Str := "&gt;".toList

/-- The entity for a double quote. -/
def quotEnt : Str := "&quot;".toList

/-- The numeric entity for an apostrophe. -/
def aposEnt : Str := "&#39;".toList

/-- `escapeHtml`: the five sequential `replaceAll` passes of the source,
ampersand first. -/
def escapeHtml (value : Str) : Str :=
  replaceAllChar '\'' aposEnt
    (replaceAllChar '"' quotEnt
      (replaceAllChar '>' gtEnt
        (replaceAllChar '<' ltEnt
          (replaceAllChar '&' ampEnt value))))

/-- The class token for a node type. -/
def typeStr : NodeType → Str
  | .file => "file".toList
  | .folder => "folder".toList

mutual

/-- `renderNode`: one `<li>`; folders get a `<details open>` disclosure
wrapper, and the label is escaped. -/
def renderNode : TreeNode → Str
  | .mk name ty children =>
    let classes := "tree-node ".toList ++ typeStr ty
    let label := escapeHtml name
    let body :=
      if children.length > 0
      then "<ul>".toList ++ renderList children ++ "</ul>".toList
      else []
    if ty = .folder then
      "<li class=\"".toList ++ classes ++ "\" data-type=\"".toList ++ typeStr ty ++
        "\"><details open><summary><span class=\"tree-label\">".toList ++ label ++
        "</span></summary>".toList ++ body ++ "</details></li>".toList
    else
      "<li class=\"".toList ++ classes ++ "\" data-type=\"".toList ++ typeStr ty ++
        "\"><span class=\"tree-label\">".toList ++ label ++ "</span>".toList ++
        body ++ "</li>".toList

/-- `nodes.map(renderNode).join("")`. -/
def renderList : List TreeNode → Str
  | [] => []
  | t :: ts => renderNode t ++ renderList ts

end

/-- Options of `renderHTML`. -/
structure RenderHTMLOptions where
  rootClass : Option Str := none

/-- `renderHTML`: the root `<ul>` with the (unescaped) root class around
the rendered nodes. -/
def renderHTML (nodes : List TreeNode) (options : Option RenderHTMLOptions) : Str :=
  let rootClass :=
    match options with
    | some o => o.rootClass.getD "tree".toList
    | none => "tree".toList
  "<ul class=\"".toList ++ rootClass ++ "\">".toList ++ renderList nodes ++ "</ul>".toList

/-! ### Induction principles and node traversal -/

/-- Structural induction for `WTree` with membership hypotheses on the
children. -/
theorem WTree.inductionOnW {P : WTree → Prop}
    (h : ∀ n e cs, (∀ c ∈ cs, P c) → P (.mk n e cs)) : ∀ x, P x
  | .mk n e cs => h n e cs (fun c hc => WTree.inductionOnW h c)
termination_by x => sizeOf x
decreasing_by
  have := List.sizeOf_lt_of_mem hc
  simp only [WTree.mk.sizeOf_spec]
  omega

/-- Structural induction for `TreeNode` with membership hypotheses on the
children. -/
theorem TreeNode.inductionOnT {P : TreeNode → Prop}
    (h : ∀ n t cs, (∀ c ∈ cs, P c) → P (.mk n t cs)) : ∀ x, P x
  | .mk n t cs => h n t cs (fun c hc => TreeNode.inductionOnT h c)
termination_by x => sizeOf x
decreasing_by
  have := List.sizeOf_lt_of_mem hc
  simp only [TreeNode.mk.sizeOf_spec]
  omega

mutual

/-- All nodes of a finalized tree, the root included. -/
def allNodesT : TreeNode → List TreeNode
  | .mk n t cs => .mk n t cs :: allNodesF cs

/-- All nodes of a finalized forest. -/
def allNodesF : List TreeNode → List TreeNode
  | [] => []
  | t :: ts => allNodesT t ++ allNodesF ts

end

theorem allNodesF_cons (t : TreeNode) (ts : List TreeNode) :
    allNodesF (t :: ts) = allNodesT t ++ allNodesF ts := rfl

theorem finalizeList_cons (w : WTree) (ws : List WTree) :
    finalizeList (w :: ws) = finalizeNode w :: finalizeList ws := rfl

theorem mem_allNodesF (x : TreeNode) (ts : List TreeNode) :
    x ∈ allNodesF ts ↔ ∃ t ∈ ts, x ∈ allNodesT t := by
  induction ts with
  | nil => simp [allNodesF]
  | cons t ts ih => simp [allNodesF_cons, ih]

/-! ### The finalization heuristics -/

theorem finalizeNode_mk (n : Str) (e : Bool) (cs : List WTree) :
    finalizeNode (.mk n e cs) =
      .mk n (if (finalizeList cs).length > 0 || e then .folder else leafType n)
        (finalizeList cs) := by
  rw [finalizeNode]

/-- A node finalized with children present, or with the explicit marker,
is a folder. -/
theorem finalizeNode_type_folder (n : Str) (e : Bool) (cs : List WTree)
    (h : cs ≠ [] ∨ e = true) : (finalizeNode (.mk n e cs)).type = .folder := by
  rw [finalizeNode_mk]
  rcases h with h | h
  · have : finalizeList cs ≠ [] := by
      cases cs with
      | nil => exact absurd rfl h
      | cons c cs => simp [finalizeList_cons]
    have hl : (finalizeList cs).length > 0 := List.length_pos.mpr this
    simp [TreeNode.type, hl]
  · simp [TreeNode.type, h]

/-- Every node of a finalized tree with a nonempty child list is a
folder. -/
theorem finalize_children_folder (w : WTree) :
    ∀ x ∈ allNodesT (finalizeNode w), x.children ≠ [] → x.type = .folder := by
  induction w using WTree.inductionOnW with
  | h n e cs ih =>
    intro x hx hne
    rw [finalizeNode_mk] at hx
    rw [allNodesT] at hx
    rcases List.mem_cons.mp hx with h | h
    · subst h
      simp only [TreeNode.children] at hne
      have hl : (finalizeList cs).length > 0 :=
        List.length_pos.mpr hne
      simp [TreeNode.type, hl]
    · have : ∃ c ∈ cs, x ∈ allNodesT (finalizeNode c) := by
        clear hx
        induction cs with
        | nil => simp [finalizeList, allNodesF] at h
        | cons c cs ihcs =>
          rw [finalizeList_cons, allNodesF_cons] at h
          rcases List.mem_append.mp h with h | h
          · exact ⟨c, List.mem_cons_self .., h⟩
          · obtain ⟨c', hc', hx'⟩ := ihcs (fun c hc => ih c (List.mem_cons_of_mem _ hc)) h
            exact ⟨c', List.mem_cons_of_mem _ hc', hx'⟩
      obtain ⟨c, hc, hx'⟩ := this
      exact ih c hc x hx' hne

theorem finalizeList_eq_map (ws : List WTree) :
    finalizeList ws = ws.map finalizeNode := by
  induction ws with
  | nil => rfl
  | cons w ws ih => rw [finalizeList_cons, ih, List.map_cons]

theorem except_bind_ok_iff {α β : Type} (x : Except TreeParseError α)
    (f : α → Except TreeParseError β) (b : β) :
    x >>= f = .ok b ↔ ∃ a, x = .ok a ∧ f a = .ok b := by
  cases x <;> simp [Bind.bind, Except.bind]

theorem except_bind_error_iff {α β : Type} (x : Except TreeParseError α)
    (f : α → Except TreeParseError β) (e : TreeParseError) :
    x >>= f = .error e ↔
      x = .error e ∨ ∃ a, x = .ok a ∧ f a = .error e := by
  cases x <;> simp [Bind.bind, Except.bind]

theorem buildTree_ok_iff (tokens : List LineToken) (options : Option ParseOptions)
    (F : List TreeNode) :
    buildTree tokens options = .ok F ↔
      ∃ W, buildTreeW tokens options = .ok W ∧ F = finalizeList W := by
  rw [show buildTree tokens options =
      buildTreeW tokens options >>= (fun W => pure (finalizeList W)) from rfl]
  rw [except_bind_ok_iff]
  simp only [pure, Except.pure, Except.ok.injEq]
  constructor
  · rintro ⟨W, hW, h⟩; exact ⟨W, hW, h.symm⟩
  · rintro ⟨W, hW, h⟩; exact ⟨W, hW, h.symm⟩

theorem parseTreeBlock_ok_iff (input : Str) (options : Option ParseOptions)
    (F : List TreeNode) :
    parseTreeBlock input options = .ok F ↔
      ∃ tokens, tokenizeLines input options = .ok tokens ∧
        buildTree tokens options = .ok F := by
  rw [show parseTreeBlock input options =
      tokenizeLines input options >>= (fun t => buildTree t options) from rfl]
  rw [except_bind_ok_iff]

theorem mem_allNodesF_finalizeList (x : TreeNode) (ws : List WTree) :
    x ∈ allNodesF (finalizeList ws) ↔
      ∃ w ∈ ws, x ∈ allNodesT (finalizeNode w) := by
  rw [mem_allNodesF, finalizeList_eq_map]
  constructor
  · rintro ⟨t, ht, hx⟩
    obtain ⟨w, hw, rfl⟩ := List.mem_map.mp ht
    exact ⟨w, hw, hx⟩
  · rintro ⟨w, hw, hx⟩
    exact ⟨finalizeNode w, List.mem_map.mpr ⟨w, hw, rfl⟩, hx⟩

/-- C6: for every input and options, every node of the returned forest
with a non-empty child list has type `folder`, recursively for all
descendants (stated both for `buildTree` and for `parseTreeBlock`). -/
theorem c6_children_imply_folder :
    (∀ (tokens : List LineToken) (options : Option ParseOptions) F,
      buildTree tokens options = .ok F →
        ∀ x ∈ allNodesF F, x.children ≠ [] → x.type = .folder) ∧
    (∀ (input : Str) (options : Option ParseOptions) F,
      parseTreeBlock input options = .ok F →
        ∀ x ∈ allNodesF F, x.children ≠ [] → x.type = .folder) := by
  have hb : ∀ (tokens : List LineToken) (options : Option ParseOptions) F,
      buildTree tokens options = .ok F →
        ∀ x ∈ allNodesF F, x.children ≠ [] → x.type = .folder := by
    intro tokens options F hF x hx hne
    obtain ⟨W, _, rfl⟩ := (buildTree_ok_iff tokens options F).mp hF
    obtain ⟨w, _, hx'⟩ := (mem_allNodesF_finalizeList x W).mp hx
    exact finalize_children_folder w x hx' hne
  refine ⟨hb, ?_⟩
  intro input options F hF
  obtain ⟨tokens, _, hbt⟩ := (parseTreeBlock_ok_iff input options F).mp hF
  exact hb tokens options F hbt

/-- C6 witness: the theorem applied to the parse of `"a/\n  b"`. -/
theorem c6_children_imply_folder_witness :
    (TreeNode.mk "a".toList .folder [TreeNode.mk "b".toList .folder []]).type = .folder :=
  c6_children_imply_folder.2 "a/\n  b".toList none
    [TreeNode.mk "a".toList .folder [TreeNode.mk "b".toList .folder []]] rfl
    (TreeNode.mk "a".toList .folder [TreeNode.mk "b".toList .folder []])
    (by simp [allNodesF, allNodesT]) (by simp [TreeNode.children])

/-- C7: a working node carrying the explicit trailing-slash marker is
always finalized as a folder, regardless of the name heuristics and of its
child count; concretely, `"LICENSE/"` parses to a childless folder even
though the all-caps heuristic alone would make it a file. -/
theorem c7_explicit_marker_folder :
    (∀ (n : Str) (cs : List WTree), (finalizeNode (.mk n true cs)).type = .folder) ∧
    parseTreeBlock "LICENSE/".toList none =
      .ok [.mk "LICENSE".toList .folder []] ∧
    leafType "LICENSE".toList = .file :=
  ⟨fun n cs => finalizeNode_type_folder n true cs (Or.inr rfl), rfl, rfl⟩

/-! ### C3: the leaf classification heuristic -/

/-- The dot rule exactly as the specification words it: a `.` at a
position that is neither the first nor the last character of the name. -/
def specInteriorDot (name : Str) : Bool :=
  ((name.drop 1).dropLast).contains '.'

/-- The all-caps rule as the specification words it: the substring before
the first space or `(`, stripped of non-letter characters, must be
non-empty and equal to its own upper-casing. -/
def specAllCaps (name : Str) : Bool :=
  let cands := [name.findIdx? (fun c => c = ' '), name.findIdx? (fun c => c = '(')].filterMap id
  let pre :=
    match cands.min? with
    | some i => name.take i
    | none => name
  let letters := pre.filter (fun c => ('A' ≤ c ∧ c ≤ 'Z') ∨ ('a' ≤ c ∧ c ≤ 'z'))
  letters ≠ [] && letters = letters.map Char.toUpper

/-- The ordered heuristic exactly as the claim states it: interior dot,
then all-caps, then folder. -/
def specLeafType (name : Str) : NodeType :=
  if specInteriorDot name then .file
  else if specAllCaps name then .file
  else .folder

/-- C3 counterexample: the leaf `.env` (dot in first position, not
all-caps) is classified `file` by the code, while the claim's ordered
heuristic yields `folder`. -/
theorem c3_leaf_heuristic_counterexample :
    parseTreeBlock ".env".toList none = .ok [.mk ".env".toList .file []] ∧
    (finalizeNode (.mk ".env".toList false [])).type = .file ∧
    specLeafType ".env".toList = .folder ∧
    NodeType.file ≠ NodeType.folder :=
  ⟨rfl, rfl, rfl, by decide⟩

/-- On trimmed names the code's all-caps test agrees with the
specification's wording of it. -/
theorem isAllCaps_eq_specAllCaps (name : Str) (h : jsTrim name = name) :
    isAllCaps name = specAllCaps name := by
  unfold isAllCaps specAllCaps
  rw [h]

/-- C3 amended: for a finalized leaf with no explicit marker, the type is
`file` iff the name contains a dot anywhere (not only at interior
positions) or is all-caps; the all-caps rule is as the claim words it
(names of finalized nodes are always trimmed). -/
theorem c3_leaf_heuristic_amended (name : Str) (e : Bool) (cs : List WTree)
    (hcs : cs = []) (he : e = false) (ht : jsTrim name = name) :
    (finalizeNode (.mk name e cs)).type =
      (if name.contains '.' || specAllCaps name then .file else .folder) := by
  subst hcs he
  have hft : (finalizeNode (.mk name false [])).type = leafType name := by
    rw [finalizeNode_mk]; simp [TreeNode.type, finalizeList]
  rw [hft]
  unfold leafType
  rw [isAllCaps_eq_specAllCaps name ht]

/-- C3 amended witness: the theorem applied to the all-caps leaf
`LICENSE`, which the amended heuristic classifies as a file. -/
theorem c3_leaf_heuristic_amended_witness :
    (finalizeNode (.mk "LICENSE".toList false [])).type =
      (if ("LICENSE".toList).contains '.' || specAllCaps "LICENSE".toList
        then NodeType.file else NodeType.folder) :=
  c3_leaf_heuristic_amended "LICENSE".toList false [] rfl rfl rfl

/-! ### C8: the vertical-connector rule of the indentation scan -/

theorem indentScanGo_irrel (mode : Mode) (iw ln : Nat) :
    ∀ n f1 f2 (s : Str), s.length ≤ n → s.length ≤ f1 → s.length ≤ f2 →
      indentScanGo mode iw ln f1 s = indentScanGo mode iw ln f2 s := by
  intro n
  induction n with
  | zero =>
    intro f1 f2 s hn _ _
    have hs : s = [] := List.length_eq_zero.mp (Nat.le_zero.mp hn)
    subst hs
    cases f1 <;> cases f2 <;> rfl
  | succ n ih =>
    intro f1 f2 s hn h1 h2
    cases s with
    | nil => cases f1 <;> cases f2 <;> rfl
    | cons c rest =>
      cases f1 with
      | zero => simp at h1
      | succ f1 =>
        cases f2 with
        | zero => simp at h2
        | succ f2 =>
          simp only [List.length_cons, Nat.succ_le_succ_iff] at hn h1 h2
          simp only [indentScanGo]
          by_cases hc : c = '│'
          · simp only [if_pos hc]
            have hlen : (rest.dropWhile (fun d => d = ' ')).length ≤ rest.length :=
              (List.dropWhile_sublist _).length_le
            rw [ih f1 f2 (rest.dropWhile (fun d => d = ' '))
              (le_trans hlen hn) (le_trans hlen h1) (le_trans hlen h2)]
          · simp only [if_neg hc]
            by_cases hc2 : c = ' '
            · simp only [if_pos hc2]
              have hdw : (c :: rest).dropWhile (fun d => d = ' ')
                  = rest.dropWhile (fun d => d = ' ') := by
                subst hc2; simp [List.dropWhile_cons]
              have hlen : ((c :: rest).dropWhile (fun d => d = ' ')).length ≤ rest.length := by
                rw [hdw]; exact (List.dropWhile_sublist _).length_le
              rw [ih f1 f2 ((c :: rest).dropWhile (fun d => d = ' '))
                (le_trans hlen hn) (le_trans hlen h1) (le_trans hlen h2)]
            · simp only [if_neg hc2]

theorem indentScanGo_eq_indentScan (mode : Mode) (iw ln : Nat) (fuel : Nat) (s : Str)
    (h : s.length ≤ fuel) :
    indentScanGo mode iw ln fuel s = indentScan mode iw ln s :=
  indentScanGo_irrel mode iw ln fuel fuel s.length s h h le_rfl

/-- End of the scan: a line starting with neither the connector nor a
space is left untouched with level zero. -/
theorem indentScan_stop (mode : Mode) (iw ln : Nat) (s : Str)
    (h1 : s.head? ≠ some '│') (h2 : s.head? ≠ some ' ') :
    indentScan mode iw ln s = pure (0, s) := by
  cases s with
  | nil => rfl
  | cons c rest =>
    simp only [List.head?] at h1 h2
    have hc1 : c ≠ '│' := fun h => h1 (by rw [h])
    have hc2 : c ≠ ' ' := fun h => h2 (by rw [h])
    show indentScanGo mode iw ln (rest.length + 1) (c :: rest) = _
    simp only [indentScanGo, if_neg hc1, if_neg hc2]

/-- Unfolding of the scan at a vertical connector. -/
theorem indentScan_pipe (mode : Mode) (iw ln : Nat) (rest : Str) :
    indentScan mode iw ln ('│' :: rest) =
      (do
        if (rest.takeWhile (fun d => d = ' ')).length = 0 then
          throwIfStrict mode ⟨"Invalid tree prefix after vertical connector", ln⟩
        let (lv, rem) ← indentScan mode iw ln (rest.dropWhile (fun d => d = ' '))
        pure (lv + 1, rem)) := by
  show indentScanGo mode iw ln (rest.length + 1) ('│' :: rest) = _
  simp only [indentScanGo]
  rw [indentScanGo_eq_indentScan mode iw ln rest.length
    (rest.dropWhile (fun d => d = ' ')) (List.dropWhile_sublist _).length_le]
  simp

theorem takeWhile_replicate_space (k : Nat) (rest : Str) :
    ((List.replicate k ' ' ++ rest).takeWhile (fun d => d = ' '))
      = List.replicate k ' ' ++ rest.takeWhile (fun d => d = ' ') := by
  induction k with
  | zero => simp
  | succ k ih => simp [List.replicate_succ, List.takeWhile_cons, ih]

theorem dropWhile_replicate_space (k : Nat) (rest : Str) :
    ((List.replicate k ' ' ++ rest).dropWhile (fun d => d = ' '))
      = rest.dropWhile (fun d => d = ' ') := by
  induction k with
  | zero => simp
  | succ k ih => simp [List.replicate_succ, List.dropWhile_cons, ih]

theorem takeWhile_space_nil (rest : Str) (h : rest.head? ≠ some ' ') :
    rest.takeWhile (fun d => d = ' ') = [] := by
  cases rest with
  | nil => rfl
  | cons c r =>
    simp only [List.head?] at h
    have : c ≠ ' ' := fun hh => h (by rw [hh])
    simp [List.takeWhile_cons, this]

theorem dropWhile_space_id (rest : Str) (h : rest.head? ≠ some ' ') :
    rest.dropWhile (fun d => d = ' ') = rest := by
  cases rest with
  | nil => rfl
  | cons c r =>
    simp only [List.head?] at h
    have : c ≠ ' ' := fun hh => h (by rw [hh])
    simp [List.dropWhile_cons, this]

/-- Unfolding of the scan at a space run followed by a non-indent
character. -/
theorem indentScan_spaces (mode : Mode) (iw ln : Nat) (k : Nat) (rest : Str)
    (hk : 1 ≤ k) (h1 : rest.head? ≠ some ' ') (h2 : rest.head? ≠ some '│') :
    indentScan mode iw ln (List.replicate k ' ' ++ rest) =
      (do
        if k % iw ≠ 0 then
          throwIfStrict mode ⟨"Indentation not aligned to indentWidth", ln⟩
        pure (k / iw, rest)) := by
  obtain ⟨k', rfl⟩ : ∃ k', k = k' + 1 := ⟨k - 1, (Nat.succ_pred_eq_of_pos hk).symm⟩
  have hsplit : List.replicate (k' + 1) ' ' ++ rest = ' ' :: (List.replicate k' ' ' ++ rest) := by
    simp [List.replicate_succ]
  rw [hsplit]
  show indentScanGo mode iw ln ((List.replicate k' ' ' ++ rest).length + 1) _ = _
  simp only [indentScanGo]
  rw [if_neg (show ¬(' ' = '│') by decide), if_pos trivial]
  have htw : (' ' :: (List.replicate k' ' ' ++ rest)).takeWhile (fun d => d = ' ')
      = List.replicate (k' + 1) ' ' := by
    rw [← hsplit, takeWhile_replicate_space, takeWhile_space_nil rest h1, List.append_nil]
  have hdw : (' ' :: (List.replicate k' ' ' ++ rest)).dropWhile (fun d => d = ' ')
      = rest := by
    rw [← hsplit, dropWhile_replicate_space, dropWhile_space_id rest h1]
  rw [htw, hdw]
  rw [indentScanGo_eq_indentScan mode iw ln (List.replicate k' ' ' ++ rest).length rest
    (by simp)]
  rw [indentScan_stop mode iw ln rest h2 h1]
  simp only [List.length_replicate]
  by_cases hm : (k' + 1) % iw = 0
  · simp [hm]
  · cases mode <;> simp [hm, throwIfStrict, Bind.bind, Except.bind, pure, Except.pure]

/-- C8 counterexample: on the line `│x` (connector followed by zero
spaces) in tolerant mode the scan does not stop: the connector still
contributes one level and the content is `x`, where the claim predicts a
contribution of zero levels. -/
theorem c8_connector_counterexample :
    parseIndentation "│x".toList ⟨.tolerant, 2, 2⟩ 1 = .ok (1, "x".toList) ∧
    (1 : Nat) ≠ 0 :=
  ⟨rfl, by decide⟩

/-- C8 amended: a connector followed by one or more spaces contributes
exactly one level regardless of the space count; a connector followed by
zero spaces fails in strict mode, while in tolerant mode it still
contributes one level and the scan continues (instead of stopping with no
level). -/
theorem c8_connector_amended :
    (∀ (mode : Mode) (iw ln k : Nat) (rest : Str), 1 ≤ k → rest.head? ≠ some ' ' →
      indentScan mode iw ln ('│' :: (List.replicate k ' ' ++ rest)) =
        (do
          let (lv, rem) ← indentScan mode iw ln rest
          pure (lv + 1, rem))) ∧
    (∀ (iw ln : Nat) (rest : Str), rest.head? ≠ some ' ' →
      indentScan .strict iw ln ('│' :: rest) =
        .error ⟨"Invalid tree prefix after vertical connector", ln⟩) ∧
    (∀ (iw ln : Nat) (rest : Str), rest.head? ≠ some ' ' →
      indentScan .tolerant iw ln ('│' :: rest) =
        (do
          let (lv, rem) ← indentScan .tolerant iw ln rest
          pure (lv + 1, rem))) := by
  refine ⟨?_, ?_, ?_⟩
  · intro mode iw ln k rest hk h1
    rw [indentScan_pipe]
    rw [takeWhile_replicate_space, takeWhile_space_nil rest h1, List.append_nil]
    rw [dropWhile_replicate_space, dropWhile_space_id rest h1]
    have : ¬((List.replicate k ' ').length = 0) := by
      simp [List.length_replicate]; omega
    simp only [if_neg this]
    simp
  · intro iw ln rest h1
    rw [indentScan_pipe]
    rw [takeWhile_space_nil rest h1]
    simp [throwIfStrict, Bind.bind, Except.bind]
  · intro iw ln rest h1
    rw [indentScan_pipe]
    rw [takeWhile_space_nil rest h1, dropWhile_space_id rest h1]
    simp [throwIfStrict, Bind.bind, Except.bind, pure, Except.pure]

/-- C8 amended witness: the first part applied to `│␣␣x`, the second and
third to `│x`. -/
theorem c8_connector_amended_witness :
    indentScan .tolerant 2 1 ('│' :: (List.replicate 2 ' ' ++ "x".toList)) =
      (do
        let (lv, rem) ← indentScan .tolerant 2 1 "x".toList
        pure (lv + 1, rem)) ∧
    indentScan .strict 2 1 ('│' :: "x".toList) =
      .error ⟨"Invalid tree prefix after vertical connector", 1⟩ :=
  ⟨c8_connector_amended.1 .tolerant 2 1 2 "x".toList (by decide) (by decide),
   c8_connector_amended.2.1 2 1 "x".toList (by decide)⟩

/-! ### C9: HTML escaping -/

/-- The per-character effect of the five sequential replacement passes. -/
def escChar (c : Char) : Str :=
  if c = '&' then ampEnt
  else if c = '<' then ltEnt
  else if c = '>' then gtEnt
  else if c = '"' then quotEnt
  else if c = '\'' then aposEnt
  else [c]

theorem replaceAllChar_append (t : Char) (r : Str) (x y : Str) :
    replaceAllChar t r (x ++ y) = replaceAllChar t r x ++ replaceAllChar t r y := by
  induction x with
  | nil => rfl
  | cons c x ih =>
    by_cases hc : c = t <;> simp [replaceAllChar, hc, ih]

theorem replaceAllChar_cons (t : Char) (r : Str) (c : Char) (s : Str) :
    replaceAllChar t r (c :: s) =
      (if c = t then r else [c]) ++ replaceAllChar t r s := by
  by_cases hc : c = t <;> simp [replaceAllChar, hc]

theorem replaceAllChar_singleton_ne (t : Char) (r : Str) (c : Char) (h : c ≠ t) :
    replaceAllChar t r [c] = [c] := by
  simp [replaceAllChar, h]

theorem escapeHtml_cons (c : Char) (s : Str) :
    escapeHtml (c :: s) = escChar c ++ escapeHtml s := by
  unfold escapeHtml
  rw [replaceAllChar_cons, replaceAllChar_append, replaceAllChar_append,
    replaceAllChar_append, replaceAllChar_append]
  congr 1
  by_cases h1 : c = '&'
  · subst h1; rfl
  · by_cases h2 : c = '<'
    · subst h2; rfl
    · by_cases h3 : c = '>'
      · subst h3; rfl
      · by_cases h4 : c = '"'
        · subst h4; rfl
        · by_cases h5 : c = '\''
          · subst h5; rfl
          · rw [if_neg h1,
              replaceAllChar_singleton_ne _ _ _ h2,
              replaceAllChar_singleton_ne _ _ _ h3,
              replaceAllChar_singleton_ne _ _ _ h4,
              replaceAllChar_singleton_ne _ _ _ h5,
              escChar, if_neg h1, if_neg h2, if_neg h3, if_neg h4, if_neg h5]

theorem escapeHtml_flatten (s : Str) :
    escapeHtml s = (s.map escChar).flatten := by
  induction s with
  | nil => rfl
  | cons c s ih => rw [escapeHtml_cons, ih, List.map_cons, List.flatten_cons]

/-- The entity tail after an ampersand for each of the five escapes. -/
def entTails : List Str :=
  ["amp;".toList, "lt;".toList, "gt;".toList, "quot;".toList, "#39;".toList]

/-- Every ampersand of the string begins one of the five entities emitted
by `escapeHtml`. -/
def entityOk : Str → Bool
  | [] => true
  | c :: rest =>
    (if c = '&' then entTails.any (fun t => t.isPrefixOf rest) else true) && entityOk rest

theorem entityOk_cons_ne (c : Char) (rest : Str) (h : c ≠ '&') :
    entityOk (c :: rest) = entityOk rest := by
  simp [entityOk, h]

theorem entityOk_escChar_append (c : Char) (t : Str) :
    entityOk (escChar c ++ t) = entityOk t := by
  by_cases h1 : c = '&'
  · subst h1
    show entityOk ('&' :: 'a' :: 'm' :: 'p' :: ';' :: t) = entityOk t
    rw [show entityOk ('&' :: 'a' :: 'm' :: 'p' :: ';' :: t)
        = (entTails.any (fun u => u.isPrefixOf ('a' :: 'm' :: 'p' :: ';' :: t))
            && entityOk ('a' :: 'm' :: 'p' :: ';' :: t)) from by simp [entityOk]]
    rw [entityOk_cons_ne _ _ (by decide), entityOk_cons_ne _ _ (by decide),
      entityOk_cons_ne _ _ (by decide), entityOk_cons_ne _ _ (by decide)]
    have : entTails.any (fun u => u.isPrefixOf ('a' :: 'm' :: 'p' :: ';' :: t)) = true := by
      simp [entTails, List.isPrefixOf]
    rw [this, Bool.true_and]
  · by_cases h2 : c = '<'
    · subst h2
      show entityOk ('&' :: 'l' :: 't' :: ';' :: t) = entityOk t
      rw [show entityOk ('&' :: 'l' :: 't' :: ';' :: t)
          = (entTails.any (fun u => u.isPrefixOf ('l' :: 't' :: ';' :: t))
              && entityOk ('l' :: 't' :: ';' :: t)) from by simp [entityOk]]
      rw [entityOk_cons_ne _ _ (by decide), entityOk_cons_ne _ _ (by decide),
        entityOk_cons_ne _ _ (by decide)]
      have : entTails.any (fun u => u.isPrefixOf ('l' :: 't' :: ';' :: t)) = true := by
        simp [entTails, List.isPrefixOf]
      rw [this, Bool.true_and]
    · by_cases h3 : c = '>'
      · subst h3
        show entityOk ('&' :: 'g' :: 't' :: ';' :: t) = entityOk t
        rw [show entityOk ('&' :: 'g' :: 't' :: ';' :: t)
            = (entTails.any (fun u => u.isPrefixOf ('g' :: 't' :: ';' :: t))
                && entityOk ('g' :: 't' :: ';' :: t)) from by simp [entityOk]]
        rw [entityOk_cons_ne _ _ (by decide), entityOk_cons_ne _ _ (by decide),
          entityOk_cons_ne _ _ (by decide)]
        have : entTails.any (fun u => u.isPrefixOf ('g' :: 't' :: ';' :: t)) = true := by
          simp [entTails, List.isPrefixOf]
        rw [this, Bool.true_and]
      · by_cases h4 : c = '"'
        · subst h4
          show entityOk ('&' :: 'q' :: 'u' :: 'o' :: 't' :: ';' :: t) = entityOk t
          rw [show entityOk ('&' :: 'q' :: 'u' :: 'o' :: 't' :: ';' :: t)
              = (entTails.any (fun u => u.isPrefixOf ('q' :: 'u' :: 'o' :: 't' :: ';' :: t))
                  && entityOk ('q' :: 'u' :: 'o' :: 't' :: ';' :: t)) from by simp [entityOk]]
          rw [entityOk_cons_ne _ _ (by decide), entityOk_cons_ne _ _ (by decide),
            entityOk_cons_ne _ _ (by decide), entityOk_cons_ne _ _ (by decide),
            entityOk_cons_ne _ _ (by decide)]
          have : entTails.any
              (fun u => u.isPrefixOf ('q' :: 'u' :: 'o' :: 't' :: ';' :: t)) = true := by
            simp [entTails, List.isPrefixOf]
          rw [this, Bool.true_and]
        · by_cases h5 : c = '\''
          · subst h5
            show entityOk ('&' :: '#' :: '3' :: '9' :: ';' :: t) = entityOk t
            rw [show entityOk ('&' :: '#' :: '3' :: '9' :: ';' :: t)
                = (entTails.any (fun u => u.isPrefixOf ('#' :: '3' :: '9' :: ';' :: t))
                    && entityOk ('#' :: '3' :: '9' :: ';' :: t)) from by simp [entityOk]]
            rw [entityOk_cons_ne _ _ (by decide), entityOk_cons_ne _ _ (by decide),
              entityOk_cons_ne _ _ (by decide), entityOk_cons_ne _ _ (by decide)]
            have : entTails.any
                (fun u => u.isPrefixOf ('#' :: '3' :: '9' :: ';' :: t)) = true := by
              simp [entTails, List.isPrefixOf]
            rw [this, Bool.true_and]
          · rw [show escChar c = [c] from by
              simp [escChar, if_neg h1, if_neg h2, if_neg h3, if_neg h4, if_neg h5]]
            exact entityOk_cons_ne c t h1

theorem entityOk_escapeHtml (s : Str) : entityOk (escapeHtml s) = true := by
  rw [escapeHtml_flatten]
  induction s with
  | nil => rfl
  | cons c s ih =>
    rw [List.map_cons, List.flatten_cons, entityOk_escChar_append]
    exact ih

theorem escapeHtml_no_raw (s : Str) :
    ∀ c ∈ escapeHtml s, c ≠ '<' ∧ c ≠ '>' ∧ c ≠ '"' ∧ c ≠ '\'' := by
  rw [escapeHtml_flatten]
  intro c hc
  obtain ⟨l, hl, hcl⟩ := List.mem_flatten.mp hc
  obtain ⟨d, _, rfl⟩ := List.mem_map.mp hl
  by_cases h1 : d = '&'
  · subst h1; fin_cases hcl <;> decide
  · by_cases h2 : d = '<'
    · subst h2; fin_cases hcl <;> decide
    · by_cases h3 : d = '>'
      · subst h3; fin_cases hcl <;> decide
      · by_cases h4 : d = '"'
        · subst h4; fin_cases hcl <;> decide
        · by_cases h5 : d = '\''
          · subst h5; fin_cases hcl <;> decide
          · rw [show escChar d = [d] from by
              simp [escChar, if_neg h1, if_neg h2, if_neg h3, if_neg h4, if_neg h5]] at hcl
            rcases List.mem_singleton.mp hcl with rfl
            exact ⟨h2, h3, h4, h5⟩

/-- C9 counterexample: escaping introduces ampersands, so an escaped
label is not free of all five raw sensitive characters: the escape of
`<` is `&lt;`, which contains a raw `&` (and the escape of `&` itself is
`&amp;`). -/
theorem c9_escaping_counterexample :
    escapeHtml "<".toList = "&lt;".toList ∧ '&' ∈ escapeHtml "<".toList ∧
    escapeHtml "&".toList = "&amp;".toList ∧ '&' ∈ escapeHtml "&".toList :=
  ⟨rfl, by decide, rfl, by decide⟩

/-- C9 amended: the escaped label contains no raw `<`, `>`, `"` or `'`,
and every `&` in it begins one of the five emitted entities; `renderNode`
passes every label through `escapeHtml`. -/
theorem c9_escaping_amended :
    (∀ s : Str, (∀ c ∈ escapeHtml s, c ≠ '<' ∧ c ≠ '>' ∧ c ≠ '"' ∧ c ≠ '\'') ∧
      entityOk (escapeHtml s) = true) ∧
    (∀ (n : Str) (ty : NodeType) (cs : List TreeNode),
      ∃ pre post, renderNode (.mk n ty cs) = pre ++ (escapeHtml n ++ post)) := by
  constructor
  · intro s
    exact ⟨escapeHtml_no_raw s, entityOk_escapeHtml s⟩
  · intro n ty cs
    cases ty with
    | file =>
      refine ⟨"<li class=\"".toList ++ ("tree-node ".toList ++ typeStr .file) ++
        "\" data-type=\"".toList ++ typeStr .file ++
        "\"><span class=\"tree-label\">".toList, ?_, ?_⟩
      · exact "</span>".toList ++
          (if cs.length > 0 then "<ul>".toList ++ renderList cs ++ "</ul>".toList else []) ++
          "</li>".toList
      · simp [renderNode, List.append_assoc]
    | folder =>
      refine ⟨"<li class=\"".toList ++ ("tree-node ".toList ++ typeStr .folder) ++
        "\" data-type=\"".toList ++ typeStr .folder ++
        "\"><details open><summary><span class=\"tree-label\">".toList, ?_, ?_⟩
      · exact "</span></summary>".toList ++
          (if cs.length > 0 then "<ul>".toList ++ renderList cs ++ "</ul>".toList else []) ++
          "</details></li>".toList
      · simp [renderNode, List.append_assoc]

/-- C9 amended witness: the no-raw-character part applied to the escaped
ampersand at a concrete character, plus the entity property at a concrete
label. -/
theorem c9_escaping_amended_witness :
    ('&' : Char) ≠ '<' ∧ ('&' : Char) ≠ '>' ∧ ('&' : Char) ≠ '"' ∧ ('&' : Char) ≠ '\'' :=
  (c9_escaping_amended.1 "<&x".toList).1 '&' (by decide)

/-! ### C1, C2: tolerant totality and the depth-clamp rule -/

theorem tolerant_check_bind {α : Type} (p : Prop) [Decidable p] (e : TreeParseError)
    (k : Except TreeParseError α) :
    (if p then do throwIfStrict .tolerant e; k else do pure PUnit.unit; k) = k := by
  split <;> rfl

theorem indentScanGo_tolerant_ok (iw ln : Nat) :
    ∀ fuel (s : Str), ∃ r, indentScanGo .tolerant iw ln fuel s = .ok r := by
  intro fuel
  induction fuel with
  | zero => intro s; exact ⟨(0, s), rfl⟩
  | succ fuel ih =>
    intro s
    cases s with
    | nil => exact ⟨(0, []), rfl⟩
    | cons c rest =>
      simp only [indentScanGo]
      by_cases h1 : c = '│'
      · simp only [if_pos h1]
        obtain ⟨r, hr⟩ := ih (rest.dropWhile (fun d => d = ' '))
        refine ⟨(r.1 + 1, r.2), ?_⟩
        rw [tolerant_check_bind]
        simp [Bind.bind, Except.bind, hr, pure, Except.pure]
      · simp only [if_neg h1]
        by_cases h2 : c = ' '
        · simp only [if_pos h2]
          obtain ⟨r, hr⟩ := ih ((c :: rest).dropWhile (fun d => d = ' '))
          refine ⟨(r.1 + ((c :: rest).takeWhile (fun d => d = ' ')).length / iw, r.2), ?_⟩
          rw [tolerant_check_bind]
          simp [Bind.bind, Except.bind, hr, pure, Except.pure]
        · exact ⟨(0, c :: rest), by simp only [if_neg h2]; rfl⟩

theorem parseIndentation_tolerant_ok (rawLine : Str) (opts : ResolvedOptions)
    (ln : Nat) (hmode : opts.mode = .tolerant) :
    ∃ r, parseIndentation rawLine opts ln = .ok r := by
  unfold parseIndentation
  rw [hmode]
  simp only [tolerant_check_bind]
  obtain ⟨r, hr⟩ := indentScanGo_tolerant_ok opts.indentWidth ln
    (if (rawLine.takeWhile (fun c => c = ' ' || c = '\t')).contains '\t' then
      expandTabs (rawLine.takeWhile (fun c => c = ' ' || c = '\t')) opts.tabWidth ++
        rawLine.drop (rawLine.takeWhile (fun c => c = ' ' || c = '\t')).length
    else rawLine).length
    (if (rawLine.takeWhile (fun c => c = ' ' || c = '\t')).contains '\t' then
      expandTabs (rawLine.takeWhile (fun c => c = ' ' || c = '\t')) opts.tabWidth ++
        rawLine.drop (rawLine.takeWhile (fun c => c = ' ' || c = '\t')).length
    else rawLine)
  refine ⟨(r.1 + (readBranchMark r.2).1, jsTrim (readBranchMark r.2).2), ?_⟩
  simp only [indentScan]
  rw [hr]
  simp [Bind.bind, Except.bind, pure, Except.pure]

theorem tokenizeLine_tolerant_ok (raw : Str) (ln : Nat) (opts : ResolvedOptions)
    (hmode : opts.mode = .tolerant) :
    ∃ o, tokenizeLine raw ln opts = .ok o := by
  unfold tokenizeLine
  by_cases hb : jsTrim raw = []
  · exact ⟨none, by rw [if_pos hb]; rfl⟩
  · rw [if_neg hb]
    obtain ⟨r, hr⟩ := parseIndentation_tolerant_ok raw opts ln hmode
    rw [hr]
    by_cases hn : (if r.2.getLast? = some '/' then jsTrim r.2.dropLast else jsTrim r.2) = []
    · refine ⟨none, ?_⟩
      simp [Bind.bind, Except.bind, hn, hmode, pure, Except.pure]
    · refine ⟨some ⟨(if r.2.getLast? = some '/' then jsTrim r.2.dropLast else jsTrim r.2),
        r.1, decide (r.2.getLast? = some '/'), ln⟩, ?_⟩
      simp [Bind.bind, Except.bind, hn, pure, Except.pure]

theorem tokenizeFrom_tolerant_ok (opts : ResolvedOptions) (hmode : opts.mode = .tolerant) :
    ∀ (ln : Nat) (lines : List Str), ∃ toks, tokenizeFrom opts ln lines = .ok toks := by
  intro ln lines
  induction lines generalizing ln with
  | nil => exact ⟨[], rfl⟩
  | cons raw rest ih =>
    obtain ⟨o, ho⟩ := tokenizeLine_tolerant_ok raw ln opts hmode
    obtain ⟨toks, htoks⟩ := ih (ln + 1)
    cases o with
    | none =>
      exact ⟨toks, by simp [tokenizeFrom, Bind.bind, Except.bind, ho, htoks, pure, Except.pure]⟩
    | some t =>
      exact ⟨t :: toks, by simp [tokenizeFrom, Bind.bind, Except.bind, ho, htoks, pure, Except.pure]⟩

theorem tokenizeLines_tolerant_ok (input : Str) (options : Option ParseOptions)
    (hmode : (resolveOptions options).mode = .tolerant) :
    ∃ toks, tokenizeLines input options = .ok toks := by
  unfold tokenizeLines
  exact tokenizeFrom_tolerant_ok (resolveOptions options) hmode 1 (splitLines input)

theorem popToLen_of_le (n : Nat) (stack : List Frame) (roots : List WTree)
    (h : stack.length ≤ n) : popToLen n stack roots = (stack, roots) := by
  unfold popToLen
  rw [Nat.sub_eq_zero_of_le h]
  rfl

theorem popToLen_self (stack : List Frame) (roots : List WTree) :
    popToLen stack.length stack roots = (stack, roots) :=
  popToLen_of_le _ _ _ le_rfl

/-- In tolerant mode a token whose level does not exceed the stack pops to
its level and pushes a new frame. -/
theorem buildStep_tolerant_ok (st : BState) (tok : LineToken) :
    buildStep .tolerant st tok =
      .ok ⟨⟨tok.name, tok.explicitFolder, []⟩ ::
            (popToLen (min tok.level st.stack.length) st.stack st.roots).1,
          (popToLen (min tok.level st.stack.length) st.stack st.roots).2⟩ := by
  obtain ⟨stack, roots⟩ := st
  unfold buildStep
  by_cases h : tok.level > stack.length
  · have hmin : min tok.level stack.length = stack.length :=
      Nat.min_eq_right (Nat.le_of_lt h)
    simp only [if_pos h, hmin, Bind.bind, Except.bind, pure, Except.pure, popToLen_self]
    cases stack with
    | nil => rfl
    | cons f fs => rfl
  · have hmin : min tok.level stack.length = tok.level :=
      Nat.min_eq_left (Nat.le_of_not_lt h)
    simp only [if_neg h, hmin, Bind.bind, Except.bind, pure, Except.pure]
    cases hp : (popToLen tok.level stack roots).1 with
    | nil => simp [hp]
    | cons g gs => simp [hp, List.head?]

theorem buildGo_tolerant_ok (tokens : List LineToken) :
    ∀ st : BState, ∃ st', buildGo .tolerant tokens st = .ok st' := by
  induction tokens with
  | nil => intro st; exact ⟨st, rfl⟩
  | cons t ts ih =>
    intro st
    obtain ⟨st', hst'⟩ := ih
      ⟨⟨t.name, t.explicitFolder, []⟩ ::
          (popToLen (min t.level st.stack.length) st.stack st.roots).1,
        (popToLen (min t.level st.stack.length) st.stack st.roots).2⟩
    refine ⟨st', ?_⟩
    simp [buildGo, Bind.bind, Except.bind, buildStep_tolerant_ok, hst']

/-- Any error of `buildStep` is a strict-mode non-monotonic indentation
error carrying the token's line; in particular the `Invalid tree
structure` branch is unreachable in both modes. -/
theorem buildStep_error_inv (mode : Mode) (st : BState) (tok : LineToken)
    (e : TreeParseError) (h : buildStep mode st tok = .error e) :
    mode = .strict ∧ e = ⟨"Non-monotonic indentation", tok.line⟩ ∧
      tok.level > st.stack.length := by
  cases mode with
  | tolerant => rw [buildStep_tolerant_ok] at h; cases h
  | strict =>
    unfold buildStep at h
    by_cases hl : tok.level > st.stack.length
    · simp only [if_pos hl, Bind.bind, Except.bind] at h
      refine ⟨rfl, ?_, hl⟩
      cases h
      rfl
    · simp only [if_neg hl, Bind.bind, Except.bind, pure, Except.pure] at h
      rcases hs : (popToLen tok.level st.stack st.roots).1 with _ | ⟨f, fs⟩
      · rw [hs] at h
        simp [List.head?] at h
      · rw [hs] at h
        simp [List.head?] at h

theorem buildGo_error_inv (mode : Mode) (tokens : List LineToken) (e : TreeParseError) :
    ∀ st : BState, buildGo mode tokens st = .error e →
      mode = .strict ∧ e.category = "Non-monotonic indentation" ∧
        ∃ t ∈ tokens, e.line = t.line := by
  induction tokens with
  | nil => intro st h; cases h
  | cons t ts ih =>
    intro st h
    rw [buildGo] at h
    cases hstep : buildStep mode st t with
    | error e' =>
      rw [hstep] at h
      simp only [Bind.bind, Except.bind, Except.error.injEq] at h
      subst h
      obtain ⟨hm, he, _⟩ := buildStep_error_inv mode st t e' hstep
      exact ⟨hm, by rw [he], t, List.mem_cons_self .., by rw [he]⟩
    | ok st' =>
      rw [hstep] at h
      simp only [Bind.bind, Except.bind] at h
      obtain ⟨hm, hc, t', ht', hl⟩ := ih st' h
      exact ⟨hm, hc, t', List.mem_cons_of_mem _ ht', hl⟩

theorem buildTreeW_ok_of_buildGo (tokens : List LineToken) (options : Option ParseOptions)
    (st' : BState) (h : buildGo (resolveOptions options).mode tokens ⟨[], []⟩ = .ok st') :
    buildTreeW tokens options = .ok (popToLen 0 st'.stack st'.roots).2 := by
  unfold buildTreeW
  simp only [h, Bind.bind, Except.bind]
  rfl

theorem buildTreeW_error_inv (tokens : List LineToken) (options : Option ParseOptions)
    (e : TreeParseError) (h : buildTreeW tokens options = .error e) :
    (resolveOptions options).mode = .strict ∧
      e.category = "Non-monotonic indentation" ∧ ∃ t ∈ tokens, e.line = t.line := by
  unfold buildTreeW at h
  cases hgo : buildGo (resolveOptions options).mode tokens ⟨[], []⟩ with
  | error e' =>
    simp only [hgo, Bind.bind, Except.bind, Except.error.injEq] at h
    subst h
    exact buildGo_error_inv _ tokens _ _ hgo
  | ok st' =>
    simp only [hgo, Bind.bind, Except.bind, pure, Except.pure] at h
    rcases hp : popToLen 0 st'.stack st'.roots with ⟨a, b⟩
    rw [hp] at h
    simp at h

theorem buildTree_error_inv (tokens : List LineToken) (options : Option ParseOptions)
    (e : TreeParseError) (h : buildTree tokens options = .error e) :
    (resolveOptions options).mode = .strict ∧
      e.category = "Non-monotonic indentation" ∧ ∃ t ∈ tokens, e.line = t.line := by
  unfold buildTree at h
  cases hW : buildTreeW tokens options with
  | error e' =>
    rw [hW] at h
    simp only [Bind.bind, Except.bind] at h
    cases h
    exact buildTreeW_error_inv tokens options _ hW
  | ok W =>
    rw [hW] at h
    simp only [Bind.bind, Except.bind, pure, Except.pure] at h
    exact Except.noConfusion h

theorem buildTree_tolerant_ok (tokens : List LineToken) (options : Option ParseOptions)
    (hmode : (resolveOptions options).mode = .tolerant) :
    ∃ F, buildTree tokens options = .ok F := by
  obtain ⟨st', hst'⟩ := buildGo_tolerant_ok tokens ⟨[], []⟩
  rw [← hmode] at hst'
  have := buildTreeW_ok_of_buildGo tokens options st' hst'
  exact ⟨finalizeList (popToLen 0 st'.stack st'.roots).2,
    (buildTree_ok_iff _ _ _).mpr ⟨_, this, rfl⟩⟩

/-- C1: in tolerant mode (in particular with omitted options) the whole
pipeline always succeeds — `tokenizeLines`, `buildTree` and
`parseTreeBlock` return a result for every input — and the only error a
`buildTree` run can ever produce (in any mode) is the strict-mode
non-monotonic indentation error, so the `Invalid tree structure` branch is
unreachable. -/
theorem c1_tolerant_total :
    (∀ (input : Str) (options : Option ParseOptions),
      (resolveOptions options).mode = .tolerant →
        (∃ toks, tokenizeLines input options = .ok toks) ∧
        (∃ F, parseTreeBlock input options = .ok F)) ∧
    (∀ (tokens : List LineToken) (options : Option ParseOptions),
      (resolveOptions options).mode = .tolerant →
        ∃ F, buildTree tokens options = .ok F) ∧
    (∀ (tokens : List LineToken) (options : Option ParseOptions) (e : TreeParseError),
      buildTree tokens options = .error e →
        e.category = "Non-monotonic indentation") := by
  refine ⟨?_, ?_, ?_⟩
  · intro input options hmode
    obtain ⟨toks, htoks⟩ := tokenizeLines_tolerant_ok input options hmode
    obtain ⟨F, hF⟩ := buildTree_tolerant_ok toks options hmode
    refine ⟨⟨toks, htoks⟩, F, ?_⟩
    exact (parseTreeBlock_ok_iff input options F).mpr ⟨toks, htoks, hF⟩
  · intro tokens options hmode
    exact buildTree_tolerant_ok tokens options hmode
  · intro tokens options e h
    exact (buildTree_error_inv tokens options e h).2.1

/-- C1 witness: the theorem applied to a concrete malformed input (a
non-monotonic depth jump and a connector with no trailing space) under the
default tolerant options. -/
theorem c1_tolerant_total_witness :
    (∃ toks, tokenizeLines "a\n    │b".toList none = .ok toks) ∧
    (∃ F, parseTreeBlock "a\n    │b".toList none = .ok F) :=
  c1_tolerant_total.1 "a\n    │b".toList none rfl

/-- C2: whenever a token's level exceeds the current stack length, strict
mode fails with "Non-monotonic indentation" citing the token's line, while
tolerant mode clamps the level to the stack length so that no frame is
popped and the node is pushed directly on the deepest open node (hence
attached as its child); concretely, a level-2 line directly after a root
line is reparented as a direct child of the root in tolerant mode, and
raises at line 2 in strict mode. -/
theorem c2_depth_jump (st : BState) (tok : LineToken)
    (h : tok.level > st.stack.length) :
    buildStep .strict st tok = .error ⟨"Non-monotonic indentation", tok.line⟩ ∧
    buildStep .tolerant st tok =
      .ok ⟨⟨tok.name, tok.explicitFolder, []⟩ :: st.stack, st.roots⟩ ∧
    parseTreeBlock "r/\n    x".toList (some ⟨some .tolerant, none, none⟩) =
      .ok [.mk "r".toList .folder [.mk "x".toList .folder []]] ∧
    parseTreeBlock "r/\n    x".toList (some ⟨some .strict, none, none⟩) =
      .error ⟨"Non-monotonic indentation", 2⟩ := by
  refine ⟨?_, ?_, rfl, rfl⟩
  · unfold buildStep
    simp [if_pos h, Bind.bind, Except.bind]
  · rw [buildStep_tolerant_ok]
    have hmin : min tok.level st.stack.length = st.stack.length :=
      Nat.min_eq_right (Nat.le_of_lt h)
    rw [hmin, popToLen_self]

/-- C2 witness: the theorem applied to a level-2 token over a stack of
length 1. -/
theorem c2_depth_jump_witness :
    buildStep .strict ⟨[⟨"r".toList, true, []⟩], []⟩ ⟨"x".toList, 2, false, 2⟩ =
      .error ⟨"Non-monotonic indentation", 2⟩ ∧
    buildStep .tolerant ⟨[⟨"r".toList, true, []⟩], []⟩ ⟨"x".toList, 2, false, 2⟩ =
      .ok ⟨[⟨"x".toList, false, []⟩, ⟨"r".toList, true, []⟩], []⟩ :=
  ⟨(c2_depth_jump ⟨[⟨"r".toList, true, []⟩], []⟩ ⟨"x".toList, 2, false, 2⟩
      (by decide)).1,
   (c2_depth_jump ⟨[⟨"r".toList, true, []⟩], []⟩ ⟨"x".toList, 2, false, 2⟩
      (by decide)).2.1⟩

/-! ### C5: line-number accuracy of strict-mode errors -/

theorem check_bind_error {α : Type} (mode : Mode) (p : Prop) [Decidable p]
    (E : TreeParseError) (k : Except TreeParseError α) (e : TreeParseError)
    (h : (if p then do throwIfStrict mode E; k else do pure PUnit.unit; k) = .error e) :
    e = E ∨ k = .error e := by
  revert h
  split
  · cases mode with
    | strict =>
      intro h
      simp only [throwIfStrict, Bind.bind, Except.bind, Except.error.injEq] at h
      exact Or.inl h.symm
    | tolerant =>
      intro h
      exact Or.inr h
  · intro h
    exact Or.inr h

theorem indentScanGo_error_line (mode : Mode) (iw ln : Nat) :
    ∀ fuel (s : Str) (e : TreeParseError),
      indentScanGo mode iw ln fuel s = .error e → e.line = ln := by
  intro fuel
  induction fuel with
  | zero => intro s e h; cases h
  | succ fuel ih =>
    intro s e h
    cases s with
    | nil => cases h
    | cons c rest =>
      simp only [indentScanGo] at h
      by_cases h1 : c = '│'
      · rw [if_pos h1] at h
        rcases check_bind_error mode _ _ _ e h with he | hk
        · rw [he]
        · rcases (except_bind_error_iff _ _ _).mp hk with h3 | ⟨r, _, h4⟩
          · exact ih _ e h3
          · exact absurd h4 (by simp [pure, Except.pure])
      · rw [if_neg h1] at h
        by_cases h2 : c = ' '
        · rw [if_pos h2] at h
          rcases check_bind_error mode _ _ _ e h with he | hk
          · rw [he]
          · rcases (except_bind_error_iff _ _ _).mp hk with h3 | ⟨r, _, h4⟩
            · exact ih _ e h3
            · exact absurd h4 (by simp [pure, Except.pure])
        · rw [if_neg h2] at h
          cases h

theorem parseIndentation_error_line (rawLine : Str) (opts : ResolvedOptions)
    (ln : Nat) (e : TreeParseError)
    (h : parseIndentation rawLine opts ln = .error e) : e.line = ln := by
  unfold parseIndentation at h
  rcases check_bind_error opts.mode _ _ _ e h with he | hk
  · rw [he]
  · rcases (except_bind_error_iff _ _ _).mp hk with h3 | ⟨r, _, h4⟩
    · exact indentScanGo_error_line opts.mode opts.indentWidth ln _ _ e h3
    · obtain ⟨lv, rem⟩ := r
      simp only at h4
      rcases check_bind_error opts.mode _ _ _ e h4 with he | hk2
      · rw [he]
      · exact absurd hk2 (by simp [pure, Except.pure])

theorem tokenizeLine_error_line (raw : Str) (ln : Nat) (opts : ResolvedOptions)
    (e : TreeParseError) (h : tokenizeLine raw ln opts = .error e) : e.line = ln := by
  unfold tokenizeLine at h
  by_cases hb : jsTrim raw = []
  · rw [if_pos hb] at h; cases h
  · rw [if_neg hb] at h
    rcases (except_bind_error_iff _ _ _).mp h with h1 | ⟨r, _, h2⟩
    · exact parseIndentation_error_line raw opts ln e h1
    · obtain ⟨lv, content⟩ := r
      simp only at h2
      have hline : ∀ (nm : Str),
          ((if nm = [] then
            (if opts.mode = .strict then
              throw ⟨"Invalid empty node name", ln⟩ else pure none)
          else pure (some ⟨nm, lv, decide (content.getLast? = some '/'), ln⟩) :
            Except TreeParseError (Option LineToken)) = .error e) → e.line = ln := by
        intro nm hh
        by_cases hn : nm = []
        · rw [if_pos hn] at hh
          by_cases hm : opts.mode = .strict
          · rw [if_pos hm] at hh
            cases hh
            rfl
          · rw [if_neg hm] at hh
            exact absurd hh (by simp [pure, Except.pure])
        · rw [if_neg hn] at hh
          exact absurd hh (by simp [pure, Except.pure])
      by_cases hef : content.getLast? = some '/'
      · rw [if_pos hef] at h2
        exact hline _ h2
      · rw [if_neg hef] at h2
        exact hline _ h2

theorem tokenizeLine_ok_some_line (raw : Str) (ln : Nat) (opts : ResolvedOptions)
    (t : LineToken) (h : tokenizeLine raw ln opts = .ok (some t)) : t.line = ln := by
  unfold tokenizeLine at h
  by_cases hb : jsTrim raw = []
  · rw [if_pos hb] at h
    exact absurd h (by simp [pure, Except.pure])
  · rw [if_neg hb] at h
    rcases (except_bind_ok_iff _ _ _).mp h with ⟨r, _, h2⟩
    obtain ⟨lv, content⟩ := r
    simp only at h2
    have hline : ∀ (nm : Str),
        ((if nm = [] then
          (if opts.mode = .strict then
            throw ⟨"Invalid empty node name", ln⟩ else pure none)
        else pure (some ⟨nm, lv, decide (content.getLast? = some '/'), ln⟩) :
          Except TreeParseError (Option LineToken)) = .ok (some t)) → t.line = ln := by
      intro nm hh
      by_cases hn : nm = []
      · rw [if_pos hn] at hh
        by_cases hm : opts.mode = .strict
        · rw [if_pos hm] at hh
          cases hh
        · rw [if_neg hm] at hh
          simp only [pure, Except.pure, Except.ok.injEq] at hh
          cases hh
      · rw [if_neg hn] at hh
        simp only [pure, Except.pure, Except.ok.injEq, Option.some.injEq] at hh
        rw [← hh]
    by_cases hef : content.getLast? = some '/'
    · rw [if_pos hef] at h2
      exact hline _ h2
    · rw [if_neg hef] at h2
      exact hline _ h2

theorem tokenizeFrom_error_line (opts : ResolvedOptions) :
    ∀ (lines : List Str) (ln : Nat) (e : TreeParseError),
      tokenizeFrom opts ln lines = .error e →
        ∃ i < lines.length, e.line = ln + i ∧
          tokenizeLine (lines.getD i []) (ln + i) opts = .error e := by
  intro lines
  induction lines with
  | nil => intro ln e h; cases h
  | cons raw rest ih =>
    intro ln e h
    rw [tokenizeFrom] at h
    rcases (except_bind_error_iff _ _ _).mp h with h1 | ⟨o, ho, h2⟩
    · refine ⟨0, by simp, ?_, ?_⟩
      · rw [Nat.add_zero]
        exact tokenizeLine_error_line raw ln opts e h1
      · simpa using h1
    · rcases (except_bind_error_iff _ _ _).mp h2 with h3 | ⟨toks, _, h4⟩
      · obtain ⟨i, hi, hline, htok⟩ := ih (ln + 1) e h3
        refine ⟨i + 1, by simpa using hi, ?_, ?_⟩
        · rw [hline]; omega
        · rw [List.getD_cons_succ]
          rw [show ln + (i + 1) = ln + 1 + i by omega]
          exact htok
      · cases o <;> exact absurd h4 (by simp [pure, Except.pure])

theorem tokenizeFrom_ok_line (opts : ResolvedOptions) :
    ∀ (lines : List Str) (ln : Nat) (toks : List LineToken),
      tokenizeFrom opts ln lines = .ok toks →
        ∀ t ∈ toks, ∃ i < lines.length, t.line = ln + i ∧
          tokenizeLine (lines.getD i []) (ln + i) opts = .ok (some t) := by
  intro lines
  induction lines with
  | nil =>
    intro ln toks h t ht
    cases h
    cases ht
  | cons raw rest ih =>
    intro ln toks h t ht
    rw [tokenizeFrom] at h
    rcases (except_bind_ok_iff _ _ _).mp h with ⟨o, ho, h2⟩
    rcases (except_bind_ok_iff _ _ _).mp h2 with ⟨toks', htoks', h3⟩
    cases o with
    | none =>
      simp only [pure, Except.pure, Except.ok.injEq] at h3
      subst h3
      obtain ⟨i, hi, hline, htok⟩ := ih (ln + 1) toks' htoks' t ht
      refine ⟨i + 1, by simpa using hi, by rw [hline]; omega, ?_⟩
      rw [List.getD_cons_succ, show ln + (i + 1) = ln + 1 + i by omega]
      exact htok
    | some t0 =>
      simp only [pure, Except.pure, Except.ok.injEq] at h3
      subst h3
      rcases List.mem_cons.mp ht with rfl | ht'
      · refine ⟨0, by simp, ?_, ?_⟩
        · rw [Nat.add_zero]
          exact tokenizeLine_ok_some_line raw ln opts t ho
        · simpa using ho
      · obtain ⟨i, hi, hline, htok⟩ := ih (ln + 1) toks' htoks' t ht'
        refine ⟨i + 1, by simpa using hi, by rw [hline]; omega, ?_⟩
        rw [List.getD_cons_succ, show ln + (i + 1) = ln + 1 + i by omega]
        exact htok

/-- C5: every error raised by `parseTreeBlock` (which can only happen in
strict mode) carries a 1-based line number within the input, its message
embeds that exact line number, and the cited line is the offending one:
re-running the tokenizer on that very line alone reproduces the error, or
(for the non-monotonic indentation error) that very line tokenizes to the
offending token whose recorded line is the cited one.  Concretely, the
input `"src/\n\t  app/"` in strict mode fails with a message that starts
with `Line 2`. -/
theorem c5_error_line_accuracy :
    (∀ (input : Str) (options : Option ParseOptions) (e : TreeParseError),
      parseTreeBlock input options = .error e →
        errMessage e = "Line " ++ toString e.line ++ ": " ++ e.category ∧
        1 ≤ e.line ∧ e.line ≤ (splitLines input).length ∧
        (tokenizeLine ((splitLines input).getD (e.line - 1) []) e.line
            (resolveOptions options) = .error e ∨
          (e.category = "Non-monotonic indentation" ∧
            ∃ t : LineToken, t.line = e.line ∧
              tokenizeLine ((splitLines input).getD (e.line - 1) []) e.line
                (resolveOptions options) = .ok (some t)))) ∧
    parseTreeBlock "src/\n\t  app/".toList (some ⟨some .strict, none, none⟩) =
      .error ⟨"Mixed tabs and spaces in indentation", 2⟩ ∧
    errMessage ⟨"Mixed tabs and spaces in indentation", 2⟩ =
      "Line 2" ++ ": Mixed tabs and spaces in indentation" := by
  refine ⟨?_, rfl, rfl⟩
  intro input options e h
  rw [show parseTreeBlock input options =
      tokenizeLines input options >>= fun t => buildTree t options from rfl] at h
  refine ⟨rfl, ?_⟩
  rcases (except_bind_error_iff _ _ _).mp h with h1 | ⟨toks, htoks, h2⟩
  · obtain ⟨i, hi, hline, htok⟩ := tokenizeFrom_error_line (resolveOptions options)
      (splitLines input) 1 e h1
    refine ⟨by omega, by omega, Or.inl ?_⟩
    rw [show e.line - 1 = i by omega, show e.line = 1 + i by omega]
    exact htok
  · obtain ⟨_, hcat, t, ht, hline⟩ := buildTree_error_inv toks options e h2
    obtain ⟨i, hi, htline, htok⟩ := tokenizeFrom_ok_line (resolveOptions options)
      (splitLines input) 1 toks htoks t ht
    refine ⟨by omega, by omega, Or.inr ⟨hcat, t, hline.symm, ?_⟩⟩
    rw [show e.line - 1 = i by omega, show e.line = 1 + i by omega]
    exact htok

/-- C5 witness: the theorem's general part applied to the concrete strict
failure on `"src/\n\t  app/"`. -/
theorem c5_error_line_accuracy_witness :
    errMessage ⟨"Mixed tabs and spaces in indentation", 2⟩ =
      "Line " ++ toString (2 : Nat) ++ ": " ++ "Mixed tabs and spaces in indentation" :=
  (c5_error_line_accuracy.1 "src/\n\t  app/".toList (some ⟨some .strict, none, none⟩)
    ⟨"Mixed tabs and spaces in indentation", 2⟩ rfl).1

/-! ### C4: the renderText round trip -/

/-- A token with the source line erased; the tree builder's behaviour in
tolerant mode depends only on these three fields. -/
structure EToken where
  name : Str
  level : Nat
  explicitFolder : Bool
deriving DecidableEq

/-- Erase the line number of a token. -/
def erase (t : LineToken) : EToken :=
  ⟨t.name, t.level, t.explicitFolder⟩

/-- The pure tolerant building step: clamp the level to the stack length,
pop to the (clamped) level, push a fresh frame. -/
def stepTol (st : BState) (t : EToken) : BState :=
  ⟨⟨t.name, t.explicitFolder, []⟩ ::
      (popToLen (min t.level st.stack.length) st.stack st.roots).1,
    (popToLen (min t.level st.stack.length) st.stack st.roots).2⟩

/-- Fold the tolerant building step over a token sequence. -/
def runTol : List EToken → BState → BState
  | [], st => st
  | t :: ts, st => runTol ts (stepTol st t)

/-- The pre-order token sequence of a working forest with levels equal to
depths. -/
def flattenF : List WTree → Nat → List EToken
  | [], _ => []
  | WTree.mk n e cs :: ts, d => ⟨n, d, e⟩ :: (flattenF cs (d + 1) ++ flattenF ts d)

/-- The stack left open after building a forest into the frame below it:
all nodes of the forest are attached except along the rightmost spine,
which is still open. -/
def spineF : List WTree → Frame → List Frame
  | [], f => [f]
  | [WTree.mk n e cs], f => spineF cs ⟨n, e, []⟩ ++ [f]
  | c :: c2 :: cs, f =>
    spineF (c2 :: cs) ⟨f.name, f.explicitFolder, c :: f.childrenRev⟩

/-- The node obtained by closing the whole spine of `spineF cs f`. -/
def closeNode (cs : List WTree) (f : Frame) : WTree :=
  .mk f.name f.explicitFolder (f.childrenRev.reverse ++ cs)

/-- The builder state (open spine of the last root, closed earlier roots)
after processing the tokens of a forest at depth zero. -/
def rootState : List WTree → List WTree → List Frame × List WTree
  | [], r => ([], r)
  | [WTree.mk n e cs], r => (spineF cs ⟨n, e, []⟩, r)
  | c :: c2 :: cs, r => rootState (c2 :: cs) (r ++ [c])

mutual

/-- The working node a finalized node re-parses to after `renderText`:
the `- ` bullet is prefixed to the name and the trailing slash of folders
becomes an explicit marker. -/
def relabelT : TreeNode → WTree
  | .mk n ty cs => .mk ('-' :: ' ' :: n) (decide (ty = .folder)) (relabelL cs)

/-- `relabelT` over a forest. -/
def relabelL : List TreeNode → List WTree
  | [] => []
  | t :: ts => relabelT t :: relabelL ts

end

mutual

/-- Pre-order (name, depth) pairs of a finalized tree. -/
def ndT : TreeNode → Nat → List (Str × Nat)
  | .mk n _ cs, d => (n, d) :: ndF cs (d + 1)

/-- Pre-order (name, depth) pairs of a finalized forest. -/
def ndF : List TreeNode → Nat → List (Str × Nat)
  | [], _ => []
  | t :: ts, d => ndT t d ++ ndF ts d

end

mutual

/-- Pre-order (name, depth) pairs of a working tree. -/
def wndT : WTree → Nat → List (Str × Nat)
  | .mk n _ cs, d => (n, d) :: wndF cs (d + 1)

/-- Pre-order (name, depth) pairs of a working forest. -/
def wndF : List WTree → Nat → List (Str × Nat)
  | [], _ => []
  | t :: ts, d => wndT t d ++ wndF ts d

end

/-- The name-shape facts that hold of every parsed node and make one
rendered line round-trip: non-empty, trimmed, newline-free, and (for
files) not slash-terminated. -/
def nameOk (n : Str) (e : Bool) : Prop :=
  n ≠ [] ∧ jsTrim n = n ∧ '\n' ∉ n ∧ (e = false → n.getLast? ≠ some '/')

mutual

/-- `nameOk` holds throughout a finalized tree (with the marker fact
keyed on the `file` type, which finalization only assigns to unmarked
leaves). -/
def InvT : TreeNode → Prop
  | .mk n ty cs =>
    (n ≠ [] ∧ jsTrim n = n ∧ '\n' ∉ n ∧ (ty = .file → n.getLast? ≠ some '/')) ∧ InvL cs

/-- `InvT` over a forest. -/
def InvL : List TreeNode → Prop
  | [] => True
  | t :: ts => InvT t ∧ InvL ts

end

theorem flattenF_nil (d : Nat) : flattenF [] d = [] := by
  simp [flattenF]

theorem flattenF_cons (n : Str) (e : Bool) (cs ts : List WTree) (d : Nat) :
    flattenF (.mk n e cs :: ts) d = ⟨n, d, e⟩ :: (flattenF cs (d + 1) ++ flattenF ts d) := by
  simp [flattenF]

theorem spineF_nil (f : Frame) : spineF [] f = [f] := by
  simp [spineF]

theorem spineF_single (n : Str) (e : Bool) (cs : List WTree) (f : Frame) :
    spineF [.mk n e cs] f = spineF cs ⟨n, e, []⟩ ++ [f] := by
  simp [spineF]

theorem spineF_cons2 (c c2 : WTree) (cs : List WTree) (f : Frame) :
    spineF (c :: c2 :: cs) f =
      spineF (c2 :: cs) ⟨f.name, f.explicitFolder, c :: f.childrenRev⟩ := by
  simp [spineF]

theorem rootState_nil (r : List WTree) : rootState [] r = ([], r) := by
  simp [rootState]

theorem rootState_single (n : Str) (e : Bool) (cs : List WTree) (r : List WTree) :
    rootState [.mk n e cs] r = (spineF cs ⟨n, e, []⟩, r) := by
  simp [rootState]

theorem rootState_cons2 (c c2 : WTree) (cs : List WTree) (r : List WTree) :
    rootState (c :: c2 :: cs) r = rootState (c2 :: cs) (r ++ [c]) := by
  simp [rootState]

theorem buildGo_tolerant_runTol (tokens : List LineToken) :
    ∀ st, buildGo .tolerant tokens st = .ok (runTol (tokens.map erase) st) := by
  induction tokens with
  | nil => intro st; rfl
  | cons t ts ih =>
    intro st
    rw [buildGo, buildStep_tolerant_ok]
    simp only [Bind.bind, Except.bind, List.map_cons, runTol]
    exact ih _

theorem runTol_cons (t : EToken) (ts : List EToken) (st : BState) :
    runTol (t :: ts) st = runTol ts (stepTol st t) := rfl

theorem popToLen_cons (n : Nat) (f : Frame) (S : List Frame) (r : List WTree)
    (h : n ≤ S.length) :
    popToLen n (f :: S) r =
      popToLen n (closeOnto (closeFrame f) S r).1 (closeOnto (closeFrame f) S r).2 := by
  cases S with
  | nil =>
    have hn : n = 0 := by simp at h; omega
    subst hn
    rfl
  | cons g gs =>
    show popMany ((f :: g :: gs).length - n) _ _ = _
    have h1 : (f :: g :: gs).length - n = ((g :: gs).length - n) + 1 := by
      simp only [List.length_cons] at h ⊢
      omega
    rw [h1]
    rfl

theorem popToLen_spine (cs : List WTree) (f : Frame) :
    ∀ (S : List Frame) (r : List WTree) (n : Nat), n ≤ S.length →
      popToLen n (spineF cs f ++ S) r =
        popToLen n (closeOnto (closeNode cs f) S r).1 (closeOnto (closeNode cs f) S r).2 := by
  induction cs, f using spineF.induct with
  | case1 f =>
    intro S r n h
    rw [spineF_nil, List.singleton_append]
    rw [popToLen_cons n f S r h]
    rw [show closeNode [] f = closeFrame f by simp [closeNode, closeFrame]]
  | case2 n' e cs' f ih =>
    intro S r n h
    rw [spineF_single]
    rw [List.append_assoc, List.singleton_append]
    rw [ih (f :: S) r n (by simp only [List.length_cons] at h ⊢; omega)]
    rw [show closeNode cs' ⟨n', e, []⟩ = .mk n' e cs' by simp [closeNode]]
    rw [show closeOnto (.mk n' e cs') (f :: S) r =
        (⟨f.name, f.explicitFolder, .mk n' e cs' :: f.childrenRev⟩ :: S, r) from rfl]
    rw [popToLen_cons n _ S r h]
    rw [show closeFrame ⟨f.name, f.explicitFolder, .mk n' e cs' :: f.childrenRev⟩ =
        closeNode [.mk n' e cs'] f by simp [closeFrame, closeNode]]
  | case3 c c2 cs f ih =>
    intro S r n h
    rw [spineF_cons2]
    rw [ih S r n h]
    rw [show closeNode (c2 :: cs) ⟨f.name, f.explicitFolder, c :: f.childrenRev⟩ =
        closeNode (c :: c2 :: cs) f by simp [closeNode]]

theorem spineF_ne_nil : ∀ (cs : List WTree) (f : Frame), spineF cs f ≠ [] := by
  intro cs f
  induction cs, f using spineF.induct with
  | case1 f => simp [spineF]
  | case2 n e cs f ih => simp [spineF]
  | case3 c c2 cs f ih => rw [spineF_cons2]; exact ih

theorem runTol_flatten :
    ∀ (cs : List WTree) (dd : Nat) (f : Frame) (S : List Frame) (r : List WTree)
      (rest : List EToken), S.length + 1 = dd →
      runTol (flattenF cs dd ++ rest) ⟨f :: S, r⟩ = runTol rest ⟨spineF cs f ++ S, r⟩ := by
  intro cs dd
  induction cs, dd using flattenF.induct with
  | case1 d =>
    intro f S r rest _
    rw [flattenF_nil, List.nil_append, spineF_nil, List.singleton_append]
  | case2 n e cs' ts d ih1 ih2 =>
    intro f S r rest hS
    rw [flattenF_cons]
    rw [List.cons_append, runTol_cons]
    have hstep : stepTol ⟨f :: S, r⟩ ⟨n, d, e⟩ = ⟨⟨n, e, []⟩ :: f :: S, r⟩ := by
      unfold stepTol
      have hlen : (f :: S).length = d := by simp; omega
      rw [hlen, Nat.min_self, show popToLen d (f :: S) r = (f :: S, r) from by
        rw [← hlen]; exact popToLen_self _ _]
    rw [hstep, List.append_assoc]
    rw [ih1 ⟨n, e, []⟩ (f :: S) r (flattenF ts d ++ rest) (by simp; omega)]
    cases ts with
    | nil =>
      rw [flattenF_nil, List.nil_append]
      rw [spineF_single]
      rw [List.append_assoc, List.singleton_append]
    | cons t2 ts' =>
      obtain ⟨n2, e2, cs2⟩ := t2
      have hts : flattenF (WTree.mk n2 e2 cs2 :: ts') d ++ rest =
          ⟨n2, d, e2⟩ :: (flattenF cs2 (d + 1) ++ (flattenF ts' d ++ rest)) := by
        rw [flattenF_cons]
        simp [List.cons_append, List.append_assoc]
      have hc : closeNode cs' ⟨n, e, []⟩ = WTree.mk n e cs' := by simp [closeNode]
      have hlen2 : ((⟨f.name, f.explicitFolder, WTree.mk n e cs' :: f.childrenRev⟩ :: S :
          List Frame)).length = d := by simp; omega
      have hstep2 : stepTol ⟨spineF cs' ⟨n, e, []⟩ ++ (f :: S), r⟩ ⟨n2, d, e2⟩ =
          stepTol ⟨⟨f.name, f.explicitFolder, WTree.mk n e cs' :: f.childrenRev⟩ :: S, r⟩
            ⟨n2, d, e2⟩ := by
        unfold stepTol
        have hge : 1 ≤ (spineF cs' ⟨n, e, []⟩).length :=
          List.length_pos.mpr (spineF_ne_nil cs' ⟨n, e, []⟩)
        have hmin1 : min d (spineF cs' ⟨n, e, []⟩ ++ (f :: S)).length = d := by
          simp only [List.length_append, List.length_cons]
          omega
        have hmin2 : min d ((⟨f.name, f.explicitFolder,
            WTree.mk n e cs' :: f.childrenRev⟩ :: S : List Frame)).length = d := by
          rw [hlen2]
          exact Nat.min_self d
        rw [hmin1, hmin2]
        rw [popToLen_spine cs' ⟨n, e, []⟩ (f :: S) r d (by simp; omega)]
        rw [hc]
        rw [show closeOnto (WTree.mk n e cs') (f :: S) r =
            (⟨f.name, f.explicitFolder, WTree.mk n e cs' :: f.childrenRev⟩ :: S, r)
          from rfl]
      calc runTol (flattenF (WTree.mk n2 e2 cs2 :: ts') d ++ rest)
              ⟨spineF cs' ⟨n, e, []⟩ ++ (f :: S), r⟩
          = runTol (flattenF cs2 (d + 1) ++ (flattenF ts' d ++ rest))
              (stepTol ⟨spineF cs' ⟨n, e, []⟩ ++ (f :: S), r⟩ ⟨n2, d, e2⟩) := by
            rw [hts, runTol_cons]
        _ = runTol (flattenF cs2 (d + 1) ++ (flattenF ts' d ++ rest))
              (stepTol ⟨⟨f.name, f.explicitFolder,
                WTree.mk n e cs' :: f.childrenRev⟩ :: S, r⟩ ⟨n2, d, e2⟩) := by
            rw [hstep2]
        _ = runTol (flattenF (WTree.mk n2 e2 cs2 :: ts') d ++ rest)
              ⟨⟨f.name, f.explicitFolder, WTree.mk n e cs' :: f.childrenRev⟩ :: S, r⟩ := by
            rw [hts, runTol_cons]
        _ = runTol rest ⟨spineF (WTree.mk n2 e2 cs2 :: ts')
              ⟨f.name, f.explicitFolder, WTree.mk n e cs' :: f.childrenRev⟩ ++ S, r⟩ :=
            ih2 _ S r rest hS
        _ = runTol rest ⟨spineF (WTree.mk n e cs' :: WTree.mk n2 e2 cs2 :: ts') f ++ S, r⟩ := by
            rw [spineF_cons2]

theorem runTol_flatten_root :
    ∀ (F : List WTree) (r : List WTree) (rest : List EToken),
      runTol (flattenF F 0 ++ rest) ⟨[], r⟩ =
        runTol rest ⟨(rootState F r).1, (rootState F r).2⟩ := by
  intro F r
  induction F, r using rootState.induct with
  | case1 r =>
    intro rest
    rw [flattenF_nil, List.nil_append, rootState_nil]
  | case2 n e cs r =>
    intro rest
    rw [flattenF_cons, flattenF_nil, List.append_nil]
    rw [List.cons_append, runTol_cons]
    rw [show stepTol ⟨[], r⟩ ⟨n, 0, e⟩ = ⟨[⟨n, e, []⟩], r⟩ from rfl]
    rw [show (0 : Nat) + 1 = 1 from rfl]
    rw [runTol_flatten cs 1 ⟨n, e, []⟩ [] r rest rfl]
    rw [List.append_nil, rootState_single]
  | case3 c c2 cs r ih =>
    intro rest
    obtain ⟨n, e, cs'⟩ := c
    rw [flattenF_cons]
    rw [List.cons_append, runTol_cons]
    rw [show stepTol ⟨[], r⟩ ⟨n, 0, e⟩ = ⟨[⟨n, e, []⟩], r⟩ from rfl]
    rw [List.append_assoc]
    rw [show (0 : Nat) + 1 = 1 from rfl]
    rw [runTol_flatten cs' 1 ⟨n, e, []⟩ [] r (flattenF (c2 :: cs) 0 ++ rest) rfl]
    rw [List.append_nil]
    obtain ⟨n2, e2, cs2⟩ := c2
    have hts : flattenF (WTree.mk n2 e2 cs2 :: cs) 0 ++ rest =
        ⟨n2, 0, e2⟩ :: (flattenF cs2 1 ++ (flattenF cs 0 ++ rest)) := by
      rw [flattenF_cons]
      simp [List.cons_append, List.append_assoc]
    have hstep2 : stepTol ⟨spineF cs' ⟨n, e, []⟩, r⟩ ⟨n2, 0, e2⟩ =
        stepTol ⟨[], r ++ [WTree.mk n e cs']⟩ ⟨n2, 0, e2⟩ := by
      unfold stepTol
      simp only [Nat.zero_min, List.length_nil]
      rw [show spineF cs' ⟨n, e, []⟩ = spineF cs' ⟨n, e, []⟩ ++ [] by simp]
      rw [popToLen_spine cs' ⟨n, e, []⟩ [] r 0 (by simp)]
      rw [show closeNode cs' ⟨n, e, []⟩ = WTree.mk n e cs' by simp [closeNode]]
      rfl
    calc runTol (flattenF (WTree.mk n2 e2 cs2 :: cs) 0 ++ rest) ⟨spineF cs' ⟨n, e, []⟩, r⟩
        = runTol (flattenF cs2 1 ++ (flattenF cs 0 ++ rest))
            (stepTol ⟨spineF cs' ⟨n, e, []⟩, r⟩ ⟨n2, 0, e2⟩) := by
          rw [hts, runTol_cons]
      _ = runTol (flattenF cs2 1 ++ (flattenF cs 0 ++ rest))
            (stepTol ⟨[], r ++ [WTree.mk n e cs']⟩ ⟨n2, 0, e2⟩) := by rw [hstep2]
      _ = runTol (flattenF (WTree.mk n2 e2 cs2 :: cs) 0 ++ rest)
            ⟨[], r ++ [WTree.mk n e cs']⟩ := by rw [hts, runTol_cons]
      _ = runTol rest ⟨(rootState (WTree.mk n2 e2 cs2 :: cs) (r ++ [WTree.mk n e cs'])).1,
            (rootState (WTree.mk n2 e2 cs2 :: cs) (r ++ [WTree.mk n e cs'])).2⟩ := ih rest
      _ = runTol rest ⟨(rootState (WTree.mk n e cs' :: WTree.mk n2 e2 cs2 :: cs) r).1,
            (rootState (WTree.mk n e cs' :: WTree.mk n2 e2 cs2 :: cs) r).2⟩ := by
          rw [rootState_cons2]

theorem popToLen_rootState :
    ∀ (F : List WTree) (r : List WTree),
      popToLen 0 (rootState F r).1 (rootState F r).2 = ([], r ++ F) := by
  intro F r
  induction F, r using rootState.induct with
  | case1 r => rw [rootState_nil]; simp [popToLen, popMany]
  | case2 n e cs r =>
    rw [rootState_single]
    simp only
    rw [show spineF cs ⟨n, e, []⟩ = spineF cs ⟨n, e, []⟩ ++ [] by simp]
    rw [popToLen_spine cs ⟨n, e, []⟩ [] r 0 (by simp)]
    rw [show closeNode cs ⟨n, e, []⟩ = WTree.mk n e cs by simp [closeNode]]
    rfl
  | case3 c c2 cs r ih =>
    rw [rootState_cons2]
    rw [ih]
    simp

/-- Building the pre-order token sequence of a working forest in tolerant
mode reconstructs exactly that forest. -/
theorem buildTreeW_flatten (tokens : List LineToken) (options : Option ParseOptions)
    (V : List WTree) (hmode : (resolveOptions options).mode = .tolerant)
    (htoks : tokens.map erase = flattenF V 0) :
    buildTreeW tokens options = .ok V := by
  have hgo : buildGo .tolerant tokens ⟨[], []⟩ =
      .ok (runTol (tokens.map erase) ⟨[], []⟩) := buildGo_tolerant_runTol tokens _
  rw [htoks] at hgo
  have hrun : runTol (flattenF V 0) ⟨[], []⟩ =
      ⟨(rootState V []).1, (rootState V []).2⟩ := by
    have := runTol_flatten_root V [] []
    rw [List.append_nil] at this
    rw [this]
    rfl
  rw [hrun] at hgo
  rw [← hmode] at hgo
  have hW := buildTreeW_ok_of_buildGo tokens options _ hgo
  rw [hW]
  have hdrain := popToLen_rootState V []
  simp only at hdrain ⊢
  rw [hdrain]
  simp

theorem check_bind_ok {α : Type} (mode : Mode) (p : Prop) [Decidable p]
    (E : TreeParseError) (k : Except TreeParseError α) (a : α)
    (h : (if p then do throwIfStrict mode E; k else do pure PUnit.unit; k) = .ok a) :
    k = .ok a := by
  revert h
  split
  · cases mode with
    | strict => intro h; exact absurd h (by simp [throwIfStrict, Bind.bind, Except.bind])
    | tolerant => intro h; exact h
  · intro h; exact h

theorem jsTrim_sublist (s : Str) : List.Sublist (jsTrim s) s := by
  unfold jsTrim
  have h1 : List.Sublist ((s.dropWhile isWsChar).reverse.dropWhile isWsChar)
      (s.dropWhile isWsChar).reverse := List.dropWhile_sublist _
  have h2 := h1.reverse
  rw [List.reverse_reverse] at h2
  rw [List.rdropWhile]
  exact List.Sublist.trans h2 (List.dropWhile_sublist _)

theorem rdropWhile_head_not (p : Char → Bool) (x : Str)
    (hx : List.dropWhile p x = x) (c : Char) (y : Str)
    (h : List.rdropWhile p x = c :: y) : p c = false := by
  have hpre := List.rdropWhile_prefix p x
  rw [h] at hpre
  obtain ⟨t, ht⟩ := hpre
  by_contra hcc
  have hcc' : p c = true := by revert hcc; cases p c <;> simp
  rw [← ht, List.cons_append, List.dropWhile_cons, hcc', if_pos rfl] at hx
  have hlen : (List.dropWhile p (y ++ t)).length ≤ (y ++ t).length :=
    (List.dropWhile_sublist _).length_le
  rw [hx] at hlen
  simp at hlen

theorem jsTrim_head_not_ws (s : Str) (c : Char) (y : Str)
    (h : jsTrim s = c :: y) : isWsChar c = false := by
  unfold jsTrim at h
  exact rdropWhile_head_not isWsChar (s.dropWhile isWsChar)
    (List.dropWhile_idempotent _ _) c y h

theorem jsTrim_last_not_ws (s : Str) (c : Char)
    (h : (jsTrim s).getLast? = some c) : isWsChar c = false := by
  unfold jsTrim at h
  cases hne : List.rdropWhile isWsChar (s.dropWhile isWsChar) with
  | nil => rw [hne] at h; cases h
  | cons d y =>
    have hne' : List.rdropWhile isWsChar (s.dropWhile isWsChar) ≠ [] := by
      rw [hne]; simp
    have hlast := List.rdropWhile_last_not isWsChar (s.dropWhile isWsChar) hne'
    rw [List.getLast?_eq_getLast _ hne'] at h
    injection h with h
    rw [h] at hlast
    revert hlast
    cases isWsChar c <;> simp

theorem jsTrim_idem (s : Str) : jsTrim (jsTrim s) = jsTrim s := by
  conv_lhs => rw [jsTrim]
  have hd : List.dropWhile isWsChar (jsTrim s) = jsTrim s := by
    cases hu : jsTrim s with
    | nil => rfl
    | cons c y =>
      have hc := jsTrim_head_not_ws s c y hu
      rw [List.dropWhile_cons, hc]
      simp
  rw [hd]
  show List.rdropWhile isWsChar (List.rdropWhile isWsChar (s.dropWhile isWsChar)) = _
  rw [List.rdropWhile_idempotent]
  rfl

theorem rdropWhile_eq_self_of_getLast? (p : Char → Bool) (l : Str) (c : Char)
    (h : l.getLast? = some c) (hc : p c = false) : List.rdropWhile p l = l := by
  rw [List.rdropWhile_eq_self_iff]
  intro hl
  rw [List.getLast?_eq_getLast l hl] at h
  injection h with h
  rw [h, hc]
  simp

theorem indentScanGo_ok_sublist (mode : Mode) (iw ln : Nat) :
    ∀ fuel (s : Str) (lv : Nat) (rem : Str),
      indentScanGo mode iw ln fuel s = .ok (lv, rem) → List.Sublist rem s := by
  intro fuel
  induction fuel with
  | zero =>
    intro s lv rem h
    cases h
    exact List.Sublist.refl s
  | succ fuel ih =>
    intro s lv rem h
    cases s with
    | nil =>
      cases h
      exact List.Sublist.refl []
    | cons c rest =>
      simp only [indentScanGo] at h
      by_cases h1 : c = '│'
      · rw [if_pos h1] at h
        have h2 := check_bind_ok mode _ _ _ _ h
        rcases (except_bind_ok_iff _ _ _).mp h2 with ⟨r, hr, h3⟩
        simp only [pure, Except.pure, Except.ok.injEq, Prod.mk.injEq] at h3
        obtain ⟨-, h3b⟩ := h3
        rw [← h3b]
        refine List.Sublist.trans (ih _ _ _ hr) ?_
        exact List.Sublist.trans (List.dropWhile_sublist _) (List.sublist_cons_self _ _)
      · rw [if_neg h1] at h
        by_cases h2 : c = ' '
        · rw [if_pos h2] at h
          have h3 := check_bind_ok mode _ _ _ _ h
          rcases (except_bind_ok_iff _ _ _).mp h3 with ⟨r, hr, h4⟩
          simp only [pure, Except.pure, Except.ok.injEq, Prod.mk.injEq] at h4
          obtain ⟨-, h4b⟩ := h4
          rw [← h4b]
          exact List.Sublist.trans (ih _ _ _ hr) (List.dropWhile_sublist _)
        · rw [if_neg h2] at h
          cases h
          exact List.Sublist.refl _

theorem readBranchMark_snd_sublist (s : Str) : List.Sublist (readBranchMark s).2 s := by
  cases s with
  | nil => exact List.Sublist.refl []
  | cons c rest =>
    rw [readBranchMark]
    by_cases h : c = '├' ∨ c = '└'
    · rw [if_pos h]
      simp only
      by_cases hh : (rest.dropWhile (fun d => d = '─' || d = '-')).head? = some ' '
      · rw [if_pos hh]
        refine List.Sublist.trans (List.tail_sublist _) ?_
        exact List.Sublist.trans (List.dropWhile_sublist _) (List.sublist_cons_self _ _)
      · rw [if_neg hh]
        exact List.Sublist.trans (List.dropWhile_sublist _) (List.sublist_cons_self _ _)
    · rw [if_neg h]

theorem expandTabs_mem (lead : Str) (tw : Nat) (c : Char) (h : c ∈ expandTabs lead tw) :
    c ∈ lead ∨ c = ' ' := by
  unfold expandTabs at h
  obtain ⟨l, hl, hcl⟩ := List.mem_flatten.mp h
  obtain ⟨d, hd, rfl⟩ := List.mem_map.mp hl
  by_cases hdt : d = '\t'
  · rw [if_pos hdt] at hcl
    exact Or.inr (List.eq_of_mem_replicate hcl)
  · rw [if_neg hdt] at hcl
    rcases List.mem_singleton.mp hcl with rfl
    exact Or.inl hd

/-- Structural facts about a successful `parseIndentation`: the content is
already trimmed, and each of its characters is a character of the raw line
or a space introduced by tab expansion. -/
theorem parseIndentation_ok_inv (raw : Str) (opts : ResolvedOptions) (ln : Nat)
    (lv : Nat) (content : Str)
    (h : parseIndentation raw opts ln = .ok (lv, content)) :
    jsTrim content = content ∧ ∀ c ∈ content, c ∈ raw ∨ c = ' ' := by
  unfold parseIndentation at h
  have h2 := check_bind_ok opts.mode _ _ _ _ h
  rcases (except_bind_ok_iff _ _ _).mp h2 with ⟨r, hr, h3⟩
  obtain ⟨lv0, rem⟩ := r
  simp only at h3
  have h4 := check_bind_ok opts.mode _ _ _ _ h3
  simp only [pure, Except.pure, Except.ok.injEq, Prod.mk.injEq] at h4
  obtain ⟨-, h4b⟩ := h4
  subst h4b
  refine ⟨jsTrim_idem _, ?_⟩
  intro c hc
  have hc2 : c ∈ (readBranchMark rem).2 := (jsTrim_sublist _).subset hc
  have hc3 : c ∈ rem := (readBranchMark_snd_sublist rem).subset hc2
  have hc4 : c ∈ (if (raw.takeWhile (fun c => c = ' ' || c = '\t')).contains '\t' then
      expandTabs (raw.takeWhile (fun c => c = ' ' || c = '\t')) opts.tabWidth ++
        raw.drop (raw.takeWhile (fun c => c = ' ' || c = '\t')).length
    else raw) :=
    (indentScanGo_ok_sublist opts.mode opts.indentWidth ln _ _ _ _ hr).subset hc3
  revert hc4
  split
  · intro hc4
    rcases List.mem_append.mp hc4 with hc5 | hc5
    · rcases expandTabs_mem _ _ _ hc5 with hc6 | hc6
      · exact Or.inl ((List.takeWhile_sublist _).subset hc6)
      · exact Or.inr hc6
    · exact Or.inl ((List.drop_sublist _ _).subset hc5)
  · intro hc4
    exact Or.inl hc4

/-- Structural facts about a token produced from one raw line. -/
theorem tokenizeLine_ok_inv (raw : Str) (ln : Nat) (opts : ResolvedOptions)
    (t : LineToken) (h : tokenizeLine raw ln opts = .ok (some t))
    (hraw : '\n' ∉ raw) : nameOk t.name t.explicitFolder := by
  unfold tokenizeLine at h
  by_cases hb : jsTrim raw = []
  · rw [if_pos hb] at h
    exact absurd h (by simp [pure, Except.pure])
  · rw [if_neg hb] at h
    rcases (except_bind_ok_iff _ _ _).mp h with ⟨r, hr, h2⟩
    obtain ⟨lv, content⟩ := r
    obtain ⟨hct, hcm⟩ := parseIndentation_ok_inv raw opts ln lv content hr
    simp only at h2
    have hnl : ∀ s : Str, List.Sublist s content → '\n' ∉ s := by
      intro s hs hmem
      rcases hcm '\n' (hs.subset hmem) with hin | hsp
      · exact hraw hin
      · cases hsp
    by_cases hef : content.getLast? = some '/'
    · rw [if_pos hef] at h2
      by_cases hn : jsTrim content.dropLast = []
      · rw [if_pos hn] at h2
        revert h2
        split
        · intro h2; cases h2
        · intro h2; exact absurd h2 (by simp [pure, Except.pure])
      · rw [if_neg hn] at h2
        simp only [pure, Except.pure, Except.ok.injEq, Option.some.injEq] at h2
        subst h2
        refine ⟨hn, jsTrim_idem _, ?_, ?_⟩
        · exact hnl _ (List.Sublist.trans (jsTrim_sublist _) (List.dropLast_sublist _))
        · intro hfalse
          exact absurd hef (by simpa using hfalse)
    · rw [if_neg hef] at h2
      by_cases hn : jsTrim content = []
      · rw [if_pos hn] at h2
        revert h2
        split
        · intro h2; cases h2
        · intro h2; exact absurd h2 (by simp [pure, Except.pure])
      · rw [if_neg hn] at h2
        simp only [pure, Except.pure, Except.ok.injEq, Option.some.injEq] at h2
        subst h2
        refine ⟨hn, jsTrim_idem _, hnl _ (jsTrim_sublist _), ?_⟩
        intro _
        rw [hct]
        exact hef

theorem splitLines_cons2 (c c2 : Char) (rest : Str) :
    splitLines (c :: c2 :: rest) =
      if c = '\r' ∧ c2 = '\n' then [] :: splitLines rest
      else if c = '\n' then [] :: splitLines (c2 :: rest)
      else consHead c (splitLines (c2 :: rest)) := rfl

theorem splitLines_mem_noNl : ∀ (s : Str) (l : Str), l ∈ splitLines s → '\n' ∉ l := by
  intro s
  induction s using splitLines.induct with
  | case1 =>
    intro l hl
    rcases List.mem_singleton.mp hl with rfl
    simp
  | case2 =>
    intro l hl
    rw [show splitLines ['\n'] = [[], []] from rfl] at hl
    rcases List.mem_cons.mp hl with rfl | hl2
    · simp
    · rcases List.mem_singleton.mp hl2 with rfl
      simp
  | case3 c hc =>
    intro l hl
    rw [show splitLines [c] = if c = '\n' then [[], []] else [[c]] from rfl,
      if_neg hc] at hl
    rcases List.mem_singleton.mp hl with rfl
    intro hmem
    rcases List.mem_singleton.mp hmem with rfl
    exact hc rfl
  | case4 c c2 rest hcc ih =>
    intro l hl
    rw [splitLines_cons2, if_pos hcc] at hl
    rcases List.mem_cons.mp hl with rfl | hl2
    · simp
    · exact ih l hl2
  | case5 c2 rest h5 ih =>
    intro l hl
    rw [splitLines_cons2, if_neg h5, if_pos rfl] at hl
    rcases List.mem_cons.mp hl with rfl | hl2
    · simp
    · exact ih l hl2
  | case6 c c2 rest h1 h2 ih =>
    intro l hl
    rw [splitLines_cons2, if_neg h1, if_neg h2] at hl
    cases hsp : splitLines (c2 :: rest) with
    | nil =>
      rw [hsp, consHead] at hl
      rcases List.mem_singleton.mp hl with rfl
      intro hmem
      rcases List.mem_singleton.mp hmem with rfl
      exact h2 rfl
    | cons l0 ls =>
      rw [hsp, consHead] at hl
      rcases List.mem_cons.mp hl with rfl | hl2
      · intro hmem
        rcases List.mem_cons.mp hmem with rfl | hmem2
        · exact h2 rfl
        · exact ih l0 (by rw [hsp]; exact List.mem_cons_self ..) hmem2
      · exact ih l (by rw [hsp]; exact List.mem_cons_of_mem _ hl2)

/-- Every token of a tokenization run satisfies the name-shape facts. -/
theorem tokenizeLines_ok_inv (input : Str) (options : Option ParseOptions)
    (toks : List LineToken) (h : tokenizeLines input options = .ok toks) :
    ∀ t ∈ toks, nameOk t.name t.explicitFolder := by
  intro t ht
  obtain ⟨i, hi, hline, htok⟩ := tokenizeFrom_ok_line (resolveOptions options)
    (splitLines input) 1 toks h t ht
  have hmem : (splitLines input).getD i [] ∈ splitLines input := by
    rw [List.getD_eq_getElem?_getD]
    rw [List.getElem?_eq_getElem hi]
    simp only [Option.getD_some]
    exact List.getElem_mem _
  exact tokenizeLine_ok_inv _ _ _ t htok (splitLines_mem_noNl input _ hmem)

mutual

/-- Every node of the tree draws its name and marker from the
pair list. -/
def wOkT (ps : List (Str × Bool)) : WTree → Prop
  | .mk n e cs => (n, e) ∈ ps ∧ wOkL ps cs

/-- `wOkT` over a forest. -/
def wOkL (ps : List (Str × Bool)) : List WTree → Prop
  | [] => True
  | t :: ts => wOkT ps t ∧ wOkL ps ts

end

theorem wOkL_iff (ps : List (Str × Bool)) :
    ∀ l : List WTree, wOkL ps l ↔ ∀ w ∈ l, wOkT ps w := by
  intro l
  induction l with
  | nil => simp [wOkL]
  | cons t ts ih =>
    rw [wOkL, ih]
    constructor
    · rintro ⟨h1, h2⟩ w hw
      rcases List.mem_cons.mp hw with rfl | hw2
      · exact h1
      · exact h2 w hw2
    · intro hh
      exact ⟨hh t (List.mem_cons_self ..), fun w hw => hh w (List.mem_cons_of_mem _ hw)⟩

/-- Invariant of a frame: its own pair is drawn from the list and so are
all collected children. -/
def fOk (ps : List (Str × Bool)) (f : Frame) : Prop :=
  (f.name, f.explicitFolder) ∈ ps ∧ wOkL ps f.childrenRev

/-- Invariant of a builder state. -/
def stOk (ps : List (Str × Bool)) (st : BState) : Prop :=
  (∀ f ∈ st.stack, fOk ps f) ∧ ∀ w ∈ st.roots, wOkT ps w

theorem closeFrame_wOk (ps : List (Str × Bool)) (f : Frame) (h : fOk ps f) :
    wOkT ps (closeFrame f) := by
  obtain ⟨h1, h2⟩ := h
  rw [closeFrame, wOkT]
  refine ⟨h1, ?_⟩
  rw [wOkL_iff]
  intro w hw
  exact (wOkL_iff ps f.childrenRev).mp h2 w (List.mem_reverse.mp hw)

theorem popMany_stOk (ps : List (Str × Bool)) :
    ∀ (k : Nat) (stack : List Frame) (roots : List WTree),
      (∀ f ∈ stack, fOk ps f) → (∀ w ∈ roots, wOkT ps w) →
      (∀ f ∈ (popMany k stack roots).1, fOk ps f) ∧
        ∀ w ∈ (popMany k stack roots).2, wOkT ps w := by
  intro k
  induction k with
  | zero => intro stack roots h1 h2; exact ⟨h1, h2⟩
  | succ k ih =>
    intro stack roots h1 h2
    cases stack with
    | nil => exact ⟨by simp [popMany], by simpa [popMany] using h2⟩
    | cons f fs =>
      rw [popMany]
      have hf : wOkT ps (closeFrame f) := closeFrame_wOk ps f (h1 f (List.mem_cons_self ..))
      cases fs with
      | nil =>
        simp only [closeOnto]
        refine ih [] (roots ++ [closeFrame f]) (by simp) ?_
        intro w hw
        rcases List.mem_append.mp hw with hw2 | hw2
        · exact h2 w hw2
        · rcases List.mem_singleton.mp hw2 with rfl
          exact hf
      | cons g gs =>
        simp only [closeOnto]
        refine ih _ roots ?_ h2
        intro f' hf'
        rcases List.mem_cons.mp hf' with rfl | hf2
        · have hg := h1 g (List.mem_cons_of_mem _ (List.mem_cons_self ..))
          refine ⟨hg.1, ?_⟩
          rw [wOkL]
          exact ⟨hf, hg.2⟩
        · exact h1 f' (List.mem_cons_of_mem _ (List.mem_cons_of_mem _ hf2))

theorem stepTol_stOk (ps : List (Str × Bool)) (st : BState) (t : EToken)
    (hst : stOk ps st) (ht : (t.name, t.explicitFolder) ∈ ps) :
    stOk ps (stepTol st t) := by
  obtain ⟨h1, h2⟩ := hst
  obtain ⟨hp1, hp2⟩ := popMany_stOk ps (st.stack.length - min t.level st.stack.length)
    st.stack st.roots h1 h2
  constructor
  · intro f hf
    rcases List.mem_cons.mp hf with rfl | hf2
    · exact ⟨ht, trivial⟩
    · exact hp1 f hf2
  · exact hp2

theorem buildStep_le (mode : Mode) (st : BState) (tok : LineToken)
    (h : ¬ tok.level > st.stack.length) :
    buildStep mode st tok = .ok (stepTol st (erase tok)) := by
  obtain ⟨stack, roots⟩ := st
  have h' : ¬ tok.level > stack.length := h
  unfold buildStep stepTol
  simp only [erase]
  have hmin : min tok.level stack.length = tok.level :=
    Nat.min_eq_left (Nat.le_of_not_lt h')
  simp only [if_neg h', hmin, Bind.bind, Except.bind, pure, Except.pure]
  cases hp : (popToLen tok.level stack roots).1 with
  | nil => simp [hp]
  | cons g gs => simp [hp, List.head?]

theorem buildStep_ok_eq (mode : Mode) (st : BState) (tok : LineToken) (st' : BState)
    (h : buildStep mode st tok = .ok st') : st' = stepTol st (erase tok) := by
  by_cases hl : tok.level > st.stack.length
  · cases mode with
    | strict =>
      rw [show buildStep .strict st tok =
          .error ⟨"Non-monotonic indentation", tok.line⟩ from by
        unfold buildStep
        simp [if_pos hl, Bind.bind, Except.bind]] at h
      cases h
    | tolerant =>
      rw [buildStep_tolerant_ok] at h
      injection h with h
      rw [← h]
      unfold stepTol
      rfl
  · rw [buildStep_le mode st tok hl] at h
    injection h with h
    exact h.symm

theorem buildGo_stOk (ps : List (Str × Bool)) (mode : Mode) :
    ∀ (tokens : List LineToken) (st st' : BState),
      buildGo mode tokens st = .ok st' → stOk ps st →
      (∀ t ∈ tokens, (t.name, t.explicitFolder) ∈ ps) → stOk ps st' := by
  intro tokens
  induction tokens with
  | nil =>
    intro st st' h hst _
    cases h
    exact hst
  | cons t ts ih =>
    intro st st' h hst htoks
    rw [buildGo] at h
    cases hstep : buildStep mode st t with
    | error e =>
      rw [hstep] at h
      simp only [Bind.bind, Except.bind] at h
      cases h
    | ok st1 =>
      rw [hstep] at h
      simp only [Bind.bind, Except.bind] at h
      have h1 := buildStep_ok_eq mode st t st1 hstep
      subst h1
      refine ih _ st' h ?_ (fun t' ht' => htoks t' (List.mem_cons_of_mem _ ht'))
      exact stepTol_stOk ps st (erase t) hst (htoks t (List.mem_cons_self ..))

/-- Every root of `buildTreeW` draws its names and markers from the
tokens. -/
theorem buildTreeW_wOk (tokens : List LineToken) (options : Option ParseOptions)
    (W : List WTree) (h : buildTreeW tokens options = .ok W) :
    ∀ w ∈ W, wOkT (tokens.map (fun t => (t.name, t.explicitFolder))) w := by
  unfold buildTreeW at h
  cases hgo : buildGo (resolveOptions options).mode tokens ⟨[], []⟩ with
  | error e =>
    simp only [hgo, Bind.bind, Except.bind] at h
    cases h
  | ok st' =>
    simp only [hgo, Bind.bind, Except.bind] at h
    rcases hp : popToLen 0 st'.stack st'.roots with ⟨a, b⟩
    rw [hp] at h
    simp only [pure, Except.pure, Except.ok.injEq] at h
    subst h
    have hst' := buildGo_stOk _ (resolveOptions options).mode tokens ⟨[], []⟩ st' hgo
      ⟨by simp, by simp⟩
      (fun t ht => List.mem_map.mpr ⟨t, ht, rfl⟩)
    obtain ⟨hs1, hs2⟩ := popMany_stOk _ (st'.stack.length - 0) st'.stack st'.roots
      hst'.1 hst'.2
    rw [show popMany (st'.stack.length - 0) st'.stack st'.roots = (a, b) from hp] at hs1 hs2
    exact hs2

/-- C10: `renderHTML` interpolates the supplied root class verbatim and
unescaped into the class attribute of the root element, whatever
characters it contains. -/
theorem c10_rootclass_verbatim :
    ∀ (nodes : List TreeNode) (r : Str),
      renderHTML nodes (some ⟨some r⟩) =
        "<ul class=\"".toList ++ r ++
          ("\">".toList ++ renderList nodes ++ "</ul>".toList) := by
  intro nodes r
  simp [renderHTML, List.append_assoc]

/-! ### C4: the renderText round trip -/

theorem takeWhile_st_replicate (k : Nat) (rest : Str) :
    ((List.replicate k ' ' ++ rest).takeWhile (fun c => c = ' ' || c = '\t'))
      = List.replicate k ' ' ++ rest.takeWhile (fun c => c = ' ' || c = '\t') := by
  induction k with
  | zero => simp
  | succ k ih => simp [List.replicate_succ, List.takeWhile_cons, ih]

theorem takeWhile_st_cons_stop (c : Char) (r : Str) (h1 : c ≠ ' ') (h2 : c ≠ '\t') :
    (c :: r).takeWhile (fun d => d = ' ' || d = '\t') = [] := by
  simp [List.takeWhile_cons, h1, h2]

theorem replicate_space_contains_tab (k : Nat) :
    (List.replicate k ' ').contains '\t' = false := by
  induction k with
  | zero => rfl
  | succ k ih => simp [List.replicate_succ, List.contains_cons, ih]

theorem dropWhile_ws_replicate (k : Nat) (rest : Str) :
    (List.replicate k ' ' ++ rest).dropWhile isWsChar = rest.dropWhile isWsChar := by
  induction k with
  | zero => simp
  | succ k ih => simp [List.replicate_succ, List.dropWhile_cons, ih, isWsChar]

theorem jsTrim_rendered (k : Nat) (label : Str) (d : Char)
    (hd : label.getLast? = some d) (hdw : isWsChar d = false) :
    jsTrim (List.replicate k ' ' ++ '-' :: ' ' :: label) = '-' :: ' ' :: label := by
  unfold jsTrim
  rw [dropWhile_ws_replicate]
  have h1 : ('-' :: ' ' :: label).dropWhile isWsChar = '-' :: ' ' :: label := by
    simp [List.dropWhile_cons, isWsChar]
  rw [h1]
  have hlast : ('-' :: ' ' :: label).getLast? = some d := by
    cases label with
    | nil => cases hd
    | cons a l =>
      rw [List.getLast?_cons_cons, List.getLast?_cons_cons]
      exact hd
  exact rdropWhile_eq_self_of_getLast? isWsChar _ d hlast hdw

theorem jsTrim_dash (label : Str) (e : Char)
    (hd : label.getLast? = some e) (hew : isWsChar e = false) :
    jsTrim ('-' :: ' ' :: label) = '-' :: ' ' :: label := by
  have h := jsTrim_rendered 0 label e hd hew
  simpa using h

theorem indentScan_rendered (mode : Mode) (ln d : Nat) (rest : Str)
    (h1 : rest.head? ≠ some ' ') (h2 : rest.head? ≠ some '│') :
    indentScan mode 2 ln (List.replicate (2 * d) ' ' ++ rest) = pure (d, rest) := by
  cases d with
  | zero => simpa using indentScan_stop mode 2 ln rest h2 h1
  | succ d' =>
    rw [indentScan_spaces mode 2 ln (2 * (d' + 1)) rest (by omega) h1 h2]
    have hm : (2 * (d' + 1)) % 2 = 0 := by omega
    have hd : 2 * (d' + 1) / 2 = d' + 1 := by omega
    simp [hm, hd, Bind.bind, Except.bind, pure, Except.pure]

theorem parseIndentation_rendered (opts : ResolvedOptions) (hmode : opts.mode = .tolerant)
    (hiw : opts.indentWidth = 2) (d ln : Nat) (label : Str) (e : Char)
    (hlast : label.getLast? = some e) (hew : isWsChar e = false) :
    parseIndentation (List.replicate (2 * d) ' ' ++ '-' :: ' ' :: label) opts ln =
      .ok (d, '-' :: ' ' :: label) := by
  unfold parseIndentation
  rw [hmode]
  simp only [tolerant_check_bind]
  have hlead : ((List.replicate (2 * d) ' ' ++ '-' :: ' ' :: label).takeWhile
      (fun c => c = ' ' || c = '\t')) = List.replicate (2 * d) ' ' := by
    rw [takeWhile_st_replicate,
      takeWhile_st_cons_stop '-' _ (by decide) (by decide), List.append_nil]
  simp only [hlead, replicate_space_contains_tab]
  rw [hiw]
  rw [if_neg (by decide : ¬ (false = true))]
  rw [indentScan_rendered .tolerant ln d ('-' :: ' ' :: label)
    (by simp [List.head?]) (by simp [List.head?])]
  have hbm : readBranchMark ('-' :: ' ' :: label) = (0, '-' :: ' ' :: label) := rfl
  simp [Bind.bind, Except.bind, pure, Except.pure, hbm, jsTrim_dash label e hlast hew]

theorem getLast?_cons_cons_of_ne (a b : Char) (n : Str) (hne : n ≠ []) :
    (a :: b :: n).getLast? = n.getLast? := by
  cases n with
  | nil => exact absurd rfl hne
  | cons c l => rw [List.getLast?_cons_cons, List.getLast?_cons_cons]

theorem exists_getLast_not_ws (n : Str) (hne : n ≠ []) (htr : jsTrim n = n) :
    ∃ e, n.getLast? = some e ∧ isWsChar e = false := by
  cases hg : n.getLast? with
  | none =>
    rw [List.getLast?_eq_none_iff] at hg
    exact absurd hg hne
  | some e => exact ⟨e, rfl, jsTrim_last_not_ws n e (by rw [htr]; exact hg)⟩

/-- A rendered file line tokenizes back to its bulleted name at its
depth, with no folder marker. -/
theorem tokenizeLine_rendered_file (opts : ResolvedOptions) (hmode : opts.mode = .tolerant)
    (hiw : opts.indentWidth = 2) (d ln : Nat) (n : Str)
    (hne : n ≠ []) (htr : jsTrim n = n) (hsl : n.getLast? ≠ some '/') :
    tokenizeLine (List.replicate (2 * d) ' ' ++ '-' :: ' ' :: n) ln opts =
      .ok (some ⟨'-' :: ' ' :: n, d, false, ln⟩) := by
  obtain ⟨e, hg, hew⟩ := exists_getLast_not_ws n hne htr
  unfold tokenizeLine
  rw [if_neg (by rw [jsTrim_rendered (2 * d) n e hg hew]; simp)]
  rw [parseIndentation_rendered opts hmode hiw d ln n e hg hew]
  have hglast : ('-' :: ' ' :: n).getLast? = n.getLast? :=
    getLast?_cons_cons_of_ne '-' ' ' n hne
  simp [Bind.bind, Except.bind, pure, Except.pure, hglast, hsl,
    jsTrim_dash n e hg hew, hne]

/-- A rendered folder line tokenizes back to its bulleted name at its
depth, with the explicit folder marker. -/
theorem tokenizeLine_rendered_folder (opts : ResolvedOptions) (hmode : opts.mode = .tolerant)
    (hiw : opts.indentWidth = 2) (d ln : Nat) (n : Str)
    (hne : n ≠ []) (htr : jsTrim n = n) :
    tokenizeLine (List.replicate (2 * d) ' ' ++ '-' :: ' ' :: (n ++ ['/'])) ln opts =
      .ok (some ⟨'-' :: ' ' :: n, d, true, ln⟩) := by
  obtain ⟨e, hg, hew⟩ := exists_getLast_not_ws n hne htr
  have hgl : (n ++ ['/']).getLast? = some '/' := List.getLast?_concat _
  unfold tokenizeLine
  rw [if_neg (by rw [jsTrim_rendered (2 * d) (n ++ ['/']) '/' hgl (by decide)]; simp)]
  rw [parseIndentation_rendered opts hmode hiw d ln (n ++ ['/']) '/' hgl (by decide)]
  have hglast : ('-' :: ' ' :: (n ++ ['/'])).getLast? = some '/' := by
    rw [getLast?_cons_cons_of_ne '-' ' ' _ (by simp), hgl]
  have hdl : ('-' :: ' ' :: (n ++ ['/'])).dropLast = '-' :: ' ' :: n := by
    rw [show ('-' :: ' ' :: (n ++ ['/'])) = ('-' :: ' ' :: n) ++ ['/'] by simp,
      List.dropLast_concat]
  simp [Bind.bind, Except.bind, pure, Except.pure, hglast, hdl,
    jsTrim_dash n e hg hew, hne]

theorem splitLines_noNl (l : Str) (h : '\n' ∉ l) : splitLines l = [l] := by
  induction l with
  | nil => rfl
  | cons c r ih =>
    have hc : c ≠ '\n' := fun hh => h (hh ▸ List.mem_cons_self ..)
    have hr : '\n' ∉ r := fun hh => h (List.mem_cons_of_mem _ hh)
    cases r with
    | nil =>
      rw [show splitLines [c] = if c = '\n' then [[], []] else [[c]] from rfl, if_neg hc]
    | cons c2 r2 =>
      have hc2 : c2 ≠ '\n' := fun hh => hr (hh ▸ List.mem_cons_self ..)
      rw [splitLines_cons2, if_neg (by rintro ⟨-, h2⟩; exact hc2 h2), if_neg hc, ih hr]
      rfl

theorem splitLines_nl_cons (rest : Str) :
    splitLines ('\n' :: rest) = [] :: splitLines rest := by
  cases rest with
  | nil => rfl
  | cons c2 rs =>
    rw [splitLines_cons2, if_neg (by rintro ⟨h1, -⟩; exact absurd h1 (by decide)),
      if_pos rfl]

theorem splitLines_append_nl (rest : Str) :
    ∀ l : Str, '\n' ∉ l → l.getLast? ≠ some '\r' →
      splitLines (l ++ '\n' :: rest) = l :: splitLines rest := by
  intro l
  induction l with
  | nil =>
    intro _ _
    rw [List.nil_append, splitLines_nl_cons]
  | cons c r ih =>
    intro h hlast
    have hc : c ≠ '\n' := fun hh => h (hh ▸ List.mem_cons_self ..)
    cases r with
    | nil =>
      have hcr : c ≠ '\r' := by
        intro hh
        exact hlast (by rw [hh]; rfl)
      rw [List.cons_append, List.nil_append, splitLines_cons2,
        if_neg (by rintro ⟨h1, -⟩; exact hcr h1), if_neg hc, splitLines_nl_cons]
      rfl
    | cons c2 r2 =>
      have hr : '\n' ∉ (c2 :: r2) := fun hh => h (List.mem_cons_of_mem _ hh)
      have hc2 : c2 ≠ '\n' := fun hh => hr (hh ▸ List.mem_cons_self ..)
      have hlast2 : (c2 :: r2).getLast? ≠ some '\r' := by
        intro hh
        exact hlast (by rw [List.getLast?_cons_cons]; exact hh)
      rw [List.cons_append, List.cons_append, splitLines_cons2,
        if_neg (by rintro ⟨-, h2⟩; exact hc2 h2), if_neg hc,
        show c2 :: (r2 ++ '\n' :: rest) = (c2 :: r2) ++ '\n' :: rest from rfl,
        ih hr hlast2]
      rfl

theorem splitLines_intercalate :
    ∀ ls : List Str, ls ≠ [] → (∀ l ∈ ls, '\n' ∉ l ∧ l.getLast? ≠ some '\r') →
      splitLines (List.intercalate ['\n'] ls) = ls := by
  intro ls
  induction ls with
  | nil => intro h _; exact absurd rfl h
  | cons l ls2 ih =>
    intro _ hfacts
    cases ls2 with
    | nil =>
      rw [show List.intercalate ['\n'] [l] = l by simp [List.intercalate]]
      exact splitLines_noNl l (hfacts l (List.mem_cons_self ..)).1
    | cons l2 ls3 =>
      rw [show List.intercalate ['\n'] (l :: l2 :: ls3)
          = l ++ ['\n'] ++ List.intercalate ['\n'] (l2 :: ls3) by
        simp [List.intercalate, List.intersperse]]
      rw [List.append_assoc, List.singleton_append]
      obtain ⟨h1, h2⟩ := hfacts l (List.mem_cons_self ..)
      rw [splitLines_append_nl _ l h1 h2]
      rw [ih (by simp) (fun x hx => hfacts x (List.mem_cons_of_mem _ hx))]

theorem tokenizeFrom_append (opts : ResolvedOptions) :
    ∀ (xs ys : List Str) (ln : Nat) (t1 t2 : List LineToken),
      tokenizeFrom opts ln xs = .ok t1 →
      tokenizeFrom opts (ln + xs.length) ys = .ok t2 →
      tokenizeFrom opts ln (xs ++ ys) = .ok (t1 ++ t2) := by
  intro xs
  induction xs with
  | nil =>
    intro ys ln t1 t2 h1 h2
    simp only [tokenizeFrom, pure, Except.pure, Except.ok.injEq] at h1
    subst h1
    simpa using h2
  | cons x xs ih =>
    intro ys ln t1 t2 h1 h2
    rw [List.cons_append]
    rw [tokenizeFrom] at h1 ⊢
    cases hx : tokenizeLine x ln opts with
    | error e =>
      rw [hx] at h1
      simp only [Bind.bind, Except.bind] at h1
      cases h1
    | ok o =>
      rw [hx] at h1
      simp only [Bind.bind, Except.bind] at h1 ⊢
      cases hxs : tokenizeFrom opts (ln + 1) xs with
      | error e =>
        rw [hxs] at h1
        cases o <;> cases h1
      | ok ts1 =>
        rw [hxs] at h1
        have harith : ln + (x :: xs).length = (ln + 1) + xs.length := by
          simp only [List.length_cons]
          omega
        rw [harith] at h2
        rw [ih ys (ln + 1) ts1 t2 hxs h2]
        cases o with
        | none =>
          simp only [pure, Except.pure, Except.ok.injEq] at h1 ⊢
          rw [h1]
        | some t =>
          simp only [pure, Except.pure, Except.ok.injEq] at h1 ⊢
          rw [← h1]
          rfl

/-- Forest induction for finalized trees. -/
theorem TreeNode.forestInductionOnT {P : List TreeNode → Prop}
    (hnil : P [])
    (hcons : ∀ n t cs ts, P cs → P ts → P (.mk n t cs :: ts)) : ∀ F, P F
  | [] => hnil
  | .mk n t cs :: ts =>
    hcons n t cs ts (TreeNode.forestInductionOnT hnil hcons cs)
      (TreeNode.forestInductionOnT hnil hcons ts)
termination_by F => sizeOf F
decreasing_by
  · simp only [List.cons.sizeOf_spec, TreeNode.mk.sizeOf_spec]; omega
  · simp only [List.cons.sizeOf_spec]; omega

/-- Forest induction for working trees. -/
theorem WTree.forestInductionOnW {P : List WTree → Prop}
    (hnil : P [])
    (hcons : ∀ n e cs ts, P cs → P ts → P (.mk n e cs :: ts)) : ∀ V, P V
  | [] => hnil
  | .mk n e cs :: ts =>
    hcons n e cs ts (WTree.forestInductionOnW hnil hcons cs)
      (WTree.forestInductionOnW hnil hcons ts)
termination_by V => sizeOf V
decreasing_by
  · simp only [List.cons.sizeOf_spec, WTree.mk.sizeOf_spec]; omega
  · simp only [List.cons.sizeOf_spec]; omega

theorem renderTextList_nil (d : Nat) : renderTextList [] d = [] := by
  simp [renderTextList]

theorem renderTextList_cons (t : TreeNode) (ts : List TreeNode) (d : Nat) :
    renderTextList (t :: ts) d = renderTextNode t d ++ renderTextList ts d := by
  simp [renderTextList]

theorem renderTextNode_mk (n : Str) (ty : NodeType) (cs : List TreeNode) (d : Nat) :
    renderTextNode (.mk n ty cs) d =
      (List.replicate (2 * d) ' ' ++ '-' :: ' ' :: (if ty = .folder then n ++ ['/'] else n))
        :: renderTextList cs (d + 1) := by
  simp [renderTextNode]

theorem relabelL_nil : relabelL [] = [] := by
  simp [relabelL]

theorem relabelL_cons (t : TreeNode) (ts : List TreeNode) :
    relabelL (t :: ts) = relabelT t :: relabelL ts := by
  simp [relabelL]

theorem relabelT_mk (n : Str) (ty : NodeType) (cs : List TreeNode) :
    relabelT (.mk n ty cs) = .mk ('-' :: ' ' :: n) (decide (ty = .folder)) (relabelL cs) := by
  simp [relabelT]

/-- Every line emitted by `renderTextList` on an invariant-satisfying
forest is newline-free and does not end in a carriage return. -/
theorem renderTextList_line_facts :
    ∀ F : List TreeNode, InvL F → ∀ d, ∀ l ∈ renderTextList F d,
      '\n' ∉ l ∧ l.getLast? ≠ some '\r' := by
  intro F
  induction F using TreeNode.forestInductionOnT with
  | hnil =>
    intro _ d l hl
    rw [renderTextList_nil] at hl
    cases hl
  | hcons n ty cs ts ihcs ihts =>
    intro hInv d l hl
    rw [InvL] at hInv
    obtain ⟨hT, hts⟩ := hInv
    rw [InvT] at hT
    obtain ⟨⟨hne, htr, hnl, hslash⟩, hcsInv⟩ := hT
    rw [renderTextList_cons, renderTextNode_mk] at hl
    rcases List.mem_append.mp hl with hl1 | hl2
    · rcases List.mem_cons.mp hl1 with rfl | hl3
      · set label := if ty = .folder then n ++ ['/'] else n with hlabel
        have hlabne : label ≠ [] := by
          rw [hlabel]
          split
          · simp
          · exact hne
        have hlabnl : '\n' ∉ label := by
          rw [hlabel]
          split
          · intro hmem
            rcases List.mem_append.mp hmem with hx | hx
            · exact hnl hx
            · rcases List.mem_singleton.mp hx with hx
              cases hx
          · exact hnl
        have hlablast : ∀ c, label.getLast? = some c → c ≠ '\r' := by
          rw [hlabel]
          split
          · intro c hc
            rw [List.getLast?_concat] at hc
            injection hc with hc
            rw [← hc]
            decide
          · intro c hc
            have := jsTrim_last_not_ws n c (by rw [htr]; exact hc)
            intro hh
            rw [hh] at this
            exact absurd this (by decide)
        constructor
        · intro hmem
          rcases List.mem_append.mp hmem with hx | hx
          · have := List.eq_of_mem_replicate hx
            cases this
          · rcases List.mem_cons.mp hx with hx2 | hx2
            · cases hx2
            · rcases List.mem_cons.mp hx2 with hx3 | hx3
              · cases hx3
              · exact hlabnl hx3
        · have hl1 : ('-' :: ' ' :: label).getLast? = label.getLast? :=
            getLast?_cons_cons_of_ne _ _ _ hlabne
          rw [List.getLast?_append_of_ne_nil _ (by simp), hl1]
          intro hh
          exact hlablast '\r' hh rfl
      · exact ihcs hcsInv (d + 1) l hl3
    · exact ihts hts d l hl2

/-- Tokenizing the rendered lines of an invariant-satisfying forest
succeeds and produces exactly the pre-order tokens of the bulleted
relabeling of the forest. -/
theorem tokenizeFrom_renderTextList (opts : ResolvedOptions)
    (hmode : opts.mode = .tolerant) (hiw : opts.indentWidth = 2) :
    ∀ F : List TreeNode, InvL F → ∀ (d ln : Nat),
      ∃ toks, tokenizeFrom opts ln (renderTextList F d) = .ok toks ∧
        toks.map erase = flattenF (relabelL F) d := by
  intro F
  induction F using TreeNode.forestInductionOnT with
  | hnil =>
    intro _ d ln
    refine ⟨[], ?_, ?_⟩
    · rw [renderTextList_nil]; rfl
    · rw [relabelL_nil, flattenF_nil]; rfl
  | hcons n ty cs ts ihcs ihts =>
    intro hInv d ln
    rw [InvL] at hInv
    obtain ⟨hT, htsInv⟩ := hInv
    rw [InvT] at hT
    obtain ⟨⟨hne, htr, hnl, hslash⟩, hcsInv⟩ := hT
    obtain ⟨toks1, h1, hm1⟩ := ihcs hcsInv (d + 1) (ln + 1)
    obtain ⟨toks2, h2, hm2⟩ := ihts htsInv d (ln + 1 + (renderTextList cs (d + 1)).length)
    have happ := tokenizeFrom_append opts (renderTextList cs (d + 1)) (renderTextList ts d)
      (ln + 1) toks1 toks2 h1 h2
    have htok : tokenizeLine
        (List.replicate (2 * d) ' ' ++ '-' :: ' ' :: (if ty = .folder then n ++ ['/'] else n))
        ln opts = .ok (some ⟨'-' :: ' ' :: n, d, decide (ty = .folder), ln⟩) := by
      cases ty with
      | folder =>
        rw [if_pos rfl, show decide (NodeType.folder = NodeType.folder) = true from rfl]
        exact tokenizeLine_rendered_folder opts hmode hiw d ln n hne htr
      | file =>
        rw [if_neg (by decide), show decide (NodeType.file = NodeType.folder) = false from rfl]
        exact tokenizeLine_rendered_file opts hmode hiw d ln n hne htr (hslash rfl)
    refine ⟨⟨'-' :: ' ' :: n, d, decide (ty = .folder), ln⟩ :: (toks1 ++ toks2), ?_, ?_⟩
    · rw [renderTextList_cons, renderTextNode_mk, List.cons_append]
      rw [tokenizeFrom, htok, happ]
      simp [Bind.bind, Except.bind, pure, Except.pure]
    · rw [relabelL_cons, relabelT_mk, flattenF_cons]
      simp only [List.map_cons, List.map_append]
      rw [hm1, hm2]
      rfl

/-- Finalizing a forest whose names all satisfy the name-shape facts
yields an invariant-satisfying finalized forest. -/
theorem finalize_inv (ps : List (Str × Bool)) (hps : ∀ p ∈ ps, nameOk p.1 p.2) :
    ∀ V : List WTree, wOkL ps V → InvL (finalizeList V) := by
  intro V
  induction V using WTree.forestInductionOnW with
  | hnil =>
    intro _
    rw [show finalizeList [] = [] from rfl, InvL]
    trivial
  | hcons n e cs ts ihcs ihts =>
    intro hok
    rw [wOkL] at hok
    obtain ⟨hT, hts⟩ := hok
    rw [wOkT] at hT
    obtain ⟨hmem, hcsok⟩ := hT
    obtain ⟨hne, htr, hnl, hslash⟩ := hps (n, e) hmem
    rw [finalizeList_cons, finalizeNode_mk, InvL]
    constructor
    · rw [InvT]
      refine ⟨⟨hne, htr, hnl, ?_⟩, ihcs hcsok⟩
      intro hfile
      by_cases hcond : (finalizeList cs).length > 0 || e
      · rw [if_pos hcond] at hfile
        cases hfile
      · have he : e = false := by
          cases e
          · rfl
          · exact absurd (by simp) hcond
        exact hslash he
    · exact ihts hts

/-- Every forest returned by `parseTreeBlock` satisfies the name-shape
invariant. -/
theorem parseTreeBlock_inv (input : Str) (options : Option ParseOptions)
    (F : List TreeNode) (h : parseTreeBlock input options = .ok F) : InvL F := by
  rw [parseTreeBlock_ok_iff] at h
  obtain ⟨toks, htoks, hbuild⟩ := h
  rw [buildTree_ok_iff] at hbuild
  obtain ⟨W, hW, rfl⟩ := hbuild
  have hnames := tokenizeLines_ok_inv input options toks htoks
  have hok := buildTreeW_wOk toks options W hW
  refine finalize_inv _ ?_ W ((wOkL_iff _ _).mpr hok)
  intro p hp
  obtain ⟨t, ht, rfl⟩ := List.mem_map.mp hp
  exact hnames t ht

theorem ndF_finalizeList : ∀ (V : List WTree) (d : Nat),
    ndF (finalizeList V) d = wndF V d := by
  intro V
  induction V using WTree.forestInductionOnW with
  | hnil => intro d; rfl
  | hcons n e cs ts ihcs ihts =>
    intro d
    rw [finalizeList_cons, finalizeNode_mk]
    rw [show ndF (TreeNode.mk n
        (if (finalizeList cs).length > 0 || e then .folder else leafType n)
        (finalizeList cs) :: finalizeList ts) d
      = ((n, d) :: ndF (finalizeList cs) (d + 1)) ++ ndF (finalizeList ts) d from rfl]
    rw [show wndF (WTree.mk n e cs :: ts) d
      = ((n, d) :: wndF cs (d + 1)) ++ wndF ts d from rfl]
    rw [ihcs, ihts]

theorem wndF_relabelL : ∀ (F : List TreeNode) (d : Nat),
    wndF (relabelL F) d = (ndF F d).map (fun p => ('-' :: ' ' :: p.1, p.2)) := by
  intro F
  induction F using TreeNode.forestInductionOnT with
  | hnil => intro d; rw [relabelL_nil]; rfl
  | hcons n ty cs ts ihcs ihts =>
    intro d
    rw [relabelL_cons, relabelT_mk]
    rw [show wndF (WTree.mk ('-' :: ' ' :: n) (decide (ty = .folder)) (relabelL cs)
        :: relabelL ts) d
      = (('-' :: ' ' :: n, d) :: wndF (relabelL cs) (d + 1)) ++ wndF (relabelL ts) d from rfl]
    rw [show ndF (TreeNode.mk n ty cs :: ts) d
      = ((n, d) :: ndF cs (d + 1)) ++ ndF ts d from rfl]
    rw [ihcs, ihts, List.map_append, List.map_cons]

theorem renderTextList_ne_nil (t : TreeNode) (ts : List TreeNode) (d : Nat) :
    renderTextList (t :: ts) d ≠ [] := by
  obtain ⟨n, ty, cs⟩ := t
  rw [renderTextList_cons, renderTextNode_mk]
  simp

/-- C4 counterexample: `renderText` prefixes every label with the `- `
bullet, which survives re-parsing as part of the node name, so the
re-parsed forest does not have the same node names: parsing `a` yields a
node named `a`, rendering yields `- a/`, and re-parsing that yields a
node named `- a`. -/
theorem c4_roundtrip_counterexample :
    parseTreeBlock ("a".toList) none = .ok [TreeNode.mk ['a'] .folder []] ∧
    renderText [TreeNode.mk ['a'] .folder []] = "- a/".toList ∧
    parseTreeBlock ("- a/".toList) none = .ok [TreeNode.mk ("- a".toList) .folder []] ∧
    ndF [TreeNode.mk ("- a".toList) .folder []] 0 ≠ ndF [TreeNode.mk ['a'] .folder []] 0 := by
  refine ⟨rfl, ?_, rfl, by decide⟩
  rw [renderText, renderTextList_cons, renderTextNode_mk, renderTextList_nil]
  rfl

/-- C4 (amended): for every forest produced by `parseTreeBlock` in
tolerant mode, rendering with `renderText` and re-parsing with the
default (tolerant) options succeeds and yields a forest with the same
pre-order nesting depths whose names are the original names prefixed by
the `- ` bullet. -/
theorem c4_roundtrip_amended (input : Str) (options : Option ParseOptions)
    (F : List TreeNode) (hmode : (resolveOptions options).mode = .tolerant)
    (h : parseTreeBlock input options = .ok F) :
    ∃ F2, parseTreeBlock (renderText F) none = .ok F2 ∧
      ndF F2 0 = (ndF F 0).map (fun p => ('-' :: ' ' :: p.1, p.2)) := by
  have hInv : InvL F := parseTreeBlock_inv input options F h
  obtain ⟨toks, htoks, hmap⟩ :=
    tokenizeFrom_renderTextList (resolveOptions none) rfl rfl F hInv 0 1
  cases F with
  | nil =>
    refine ⟨[], ?_, rfl⟩
    rw [show renderText [] = [] by rw [renderText, renderTextList_nil]; rfl]
    rfl
  | cons t ts =>
    have hsplit : splitLines (renderText (t :: ts)) = renderTextList (t :: ts) 0 := by
      rw [renderText]
      exact splitLines_intercalate _ (renderTextList_ne_nil t ts 0)
        (renderTextList_line_facts (t :: ts) hInv 0)
    have htl : tokenizeLines (renderText (t :: ts)) none = .ok toks := by
      rw [tokenizeLines, hsplit]
      exact htoks
    have hbuildW : buildTreeW toks none = .ok (relabelL (t :: ts)) :=
      buildTreeW_flatten toks none _ rfl hmap
    refine ⟨finalizeList (relabelL (t :: ts)), ?_, ?_⟩
    · rw [parseTreeBlock_ok_iff]
      refine ⟨toks, htl, ?_⟩
      rw [buildTree_ok_iff]
      exact ⟨relabelL (t :: ts), hbuildW, rfl⟩
    · rw [ndF_finalizeList, wndF_relabelL]

/-- C4 amended witness: the round trip at the concrete input `a`. -/
theorem c4_roundtrip_amended_witness :
    (resolveOptions none).mode = Mode.tolerant ∧
    parseTreeBlock ("a".toList) none = .ok [TreeNode.mk ['a'] .folder []] ∧
    ∃ F2, parseTreeBlock (renderText [TreeNode.mk ['a'] .folder []]) none = .ok F2 ∧
      ndF F2 0 = (ndF [TreeNode.mk ['a'] .folder []] 0).map
        (fun p => ('-' :: ' ' :: p.1, p.2)) :=
  ⟨rfl, rfl, c4_roundtrip_amended ("a".toList) none [TreeNode.mk ['a'] .folder []] rfl rfl⟩

end TreeSpec
